import Mathlib

/-!
Verification development for the dtnsim WASM engine
(`src/wasm/bindings.cpp`, `src/wasm/dtnsim_api.h`).

The engine state and its two entry points `dtnsim_init` / `dtnsim_step` are
embedded shallowly:

* C `float` values (positions, progress, distances) become exact rationals
  `ℚ`; the C cast `static_cast<int>` on a float becomes truncation toward
  zero on `ℚ` (`truncQ`).
* `std::sqrt` is not algebraic over `ℚ`, so the step function is
  parametrised by the square-root routine `sqrtFn : ℚ → ℚ`; every theorem
  below either holds for all `sqrtFn` or takes the concrete value it needs
  as an explicit hypothesis (the value any correct square root returns).
* `rand()` draws are parametrised: `InitRand` packages the draws
  `dtnsim_init` consumes, and `dtnsim_step` takes `rnd : ℕ → ℕ` supplying
  the per-agent draw used to select a new random target node.
* `std::vector` becomes `List`; the C++ out-of-bounds-free accesses become
  `List.getD` with a dummy default (reachable states only index in bounds).
* `std::sort` with the strict `d2` comparator becomes the stable
  `List.mergeSort` with the corresponding lax comparator; the refinement is
  exact whenever the compared squared distances are distinct.

The routing pass is additionally instrumented with the list of accepted
transfers (`TransferEvent`): the C++ code updates counters at exactly those
points, so `events.length` is the number of `tx++`/`rx++` executions and the
trace order is the execution order.
-/

/-- `Message` from `dtnsim_api_js.h` / `bindings.cpp`: identified by
(src, dst, seq); `ttl` and `hops` are carried but inert. -/
structure Message where
  src : ℕ
  dst : ℕ
  seq : ℕ
  ttl : ℕ
  hops : ℕ
deriving DecidableEq

/-- `GraphNode` from `bindings.cpp`: a static 3D point with neighbor indices. -/
structure GraphNode where
  x : ℚ
  y : ℚ
  z : ℚ
  neighbors : List ℕ
deriving DecidableEq

/-- `Agent` from `bindings.cpp`: walker on the graph carrying messages. -/
structure Agent where
  id : ℕ
  current_node : ℕ
  target_node : ℕ
  progress : ℚ
  x : ℚ
  y : ℚ
  z : ℚ
  messages : List Message
  has_initial : Bool
deriving DecidableEq

/-- `RoutingStats` counters. -/
structure RoutingStats where
  delivered : ℕ
  tx : ℕ
  rx : ℕ
  duplicates : ℕ
deriving DecidableEq

/-- The engine's global mutable state (the anonymous-namespace globals of
`bindings.cpp`). -/
structure SimState where
  nodes : List GraphNode
  agents : List Agent
  messages : List Message
  agent_delivered : List Bool
  stats : RoutingStats
  seq_counter : ℕ
  routing_mode : ℕ
deriving DecidableEq

def dummyNode : GraphNode := ⟨0, 0, 0, []⟩

def dummyAgent : Agent := ⟨0, 0, 0, 0, 0, 0, 0, [], false⟩

/-- The (src, dst, seq) key comparison used everywhere in `bindings.cpp`
(`gm.src==m.src && gm.dst==m.dst && gm.seq==m.seq`). -/
def msgEq (a b : Message) : Bool :=
  a.src == b.src && a.dst == b.dst && a.seq == b.seq

/-- `has_msg` from the epidemic branch / the duplicate checks: does the
inventory already hold a (src,dst,seq)-equivalent message? -/
def hasMsg (inv : List Message) (m : Message) : Bool :=
  inv.any fun x => msgEq x m

def COMM_RANGE : ℚ := 80

def AGENT_SPEED : ℚ := 150

/-- `static_cast<int>` applied to a (here: rational) scalar: truncation
toward zero. -/
def truncQ (q : ℚ) : ℤ :=
  if 0 ≤ q then ⌊q⌋ else ⌈q⌉

/-- The squared edge vector length `dx*dx + dy*dy + dz*dz` the mobility
update computes for an agent's current edge. -/
def edgeD2 (nodes : List GraphNode) (a : Agent) : ℚ :=
  let src := nodes.getD a.current_node dummyNode
  let dst := nodes.getD a.target_node dummyNode
  (dst.x - src.x) * (dst.x - src.x) + (dst.y - src.y) * (dst.y - src.y) +
    (dst.z - src.z) * (dst.z - src.z)

/-- One agent's mobility update (`bindings.cpp` lines 266-305): advance
progress by `(AGENT_SPEED*dt)/len` clamped above at 1 (snapping to 1 when
`len < 1e-3`), recompute the interpolated position, and on arrival pick a
random neighbor as the new target (or park when there is none). -/
def progressAfter (len p dt : ℚ) : ℚ :=
  if len < 1 / 1000 then 1
  else if p + AGENT_SPEED * dt / len > 1 then 1 else p + AGENT_SPEED * dt / len

def mobilityAgent (sqrtFn : ℚ → ℚ) (nodes : List GraphNode) (rnd : ℕ) (dt : ℚ)
    (a : Agent) : Agent :=
  if nodes.length = 0 then a else
  let src := nodes.getD a.current_node dummyNode
  let dst := nodes.getD a.target_node dummyNode
  let prog1 := progressAfter (sqrtFn (edgeD2 nodes a)) a.progress dt
  let a1 : Agent :=
    { a with progress := prog1, x := src.x + (dst.x - src.x) * prog1,
             y := src.y + (dst.y - src.y) * prog1, z := src.z + (dst.z - src.z) * prog1 }
  if 1 ≤ a1.progress then
    let cur := nodes.getD a1.target_node dummyNode
    if cur.neighbors ≠ [] then
      { a1 with current_node := a1.target_node,
                target_node := cur.neighbors.getD (rnd % cur.neighbors.length) 0,
                progress := 0 }
    else
      { a1 with current_node := a1.target_node }
  else a1

/-- `cell_for` (`bindings.cpp` lines 70-76): integer grid cell of an agent,
cell size = `COMM_RANGE`. -/
def cell_for (a : Agent) : ℤ × ℤ × ℤ :=
  (truncQ (a.x / COMM_RANGE), truncQ (a.y / COMM_RANGE), truncQ (a.z / COMM_RANGE))

/-- Squared Euclidean distance between two agents' positions, as computed in
the encounter scan. -/
def dist2A (a b : Agent) : ℚ :=
  (a.x - b.x) * (a.x - b.x) + (a.y - b.y) * (a.y - b.y) + (a.z - b.z) * (a.z - b.z)

/-- One grid bucket: the agent indices whose cell is `k`, in insertion
(= index) order, exactly as the grid build loop produces it. -/
def bucket (agents : List Agent) (k : ℤ × ℤ × ℤ) : List ℕ :=
  (List.range agents.length).filter fun j => decide (cell_for (agents.getD j dummyAgent) = k)

/-- The 27 cell offsets scanned per agent, in the code's `dx`/`dy`/`dz` loop
order. -/
def neighborOffsets : List (ℤ × ℤ × ℤ) :=
  [(-1, -1, -1), (-1, -1, 0), (-1, -1, 1), (-1, 0, -1), (-1, 0, 0), (-1, 0, 1),
   (-1, 1, -1), (-1, 1, 0), (-1, 1, 1), (0, -1, -1), (0, -1, 0), (0, -1, 1),
   (0, 0, -1), (0, 0, 0), (0, 0, 1), (0, 1, -1), (0, 1, 0), (0, 1, 1),
   (1, -1, -1), (1, -1, 0), (1, -1, 1), (1, 0, -1), (1, 0, 0), (1, 0, 1),
   (1, 1, -1), (1, 1, 0), (1, 1, 1)]

/-- The encounters emitted while scanning around agent `i`
(`bindings.cpp` lines 321-345): all `idx > i` found in the 27 neighboring
cells whose squared distance is within `COMM_RANGE²`. -/
def encountersFor (agents : List Agent) (i : ℕ) : List (ℕ × ℕ) :=
  let ai := agents.getD i dummyAgent
  let ci := cell_for ai
  neighborOffsets.flatMap fun o =>
    (bucket agents (ci.1 + o.1, ci.2.1 + o.2.1, ci.2.2 + o.2.2)).filterMap fun idx =>
      if idx ≤ i then none
      else if dist2A ai (agents.getD idx dummyAgent) ≤ COMM_RANGE * COMM_RANGE then
        some (i, idx)
      else none

/-- The step's full encounter list. -/
def encounters (agents : List Agent) : List (ℕ × ℕ) :=
  (List.range agents.length).flatMap (encountersFor agents)

/-- An accepted transfer (a point where the code executes `tx++; rx++`). -/
structure TransferEvent where
  offerer : ℕ
  receiver : ℕ
  msg : Message
deriving DecidableEq

/-- The state threaded through the routing pass: the agents, the per-agent
delivered flags, the stats, the per-step `received_this_step` set (as the
list of inserted `(agent index, global message index)` pairs) and the
instrumentation trace. -/
structure RoutState where
  agents : List Agent
  flags : List Bool
  stats : RoutingStats
  received : List (ℕ × ℕ)
  events : List TransferEvent
deriving DecidableEq

/-- `mark_initial_received` (`bindings.cpp` lines 370-380). -/
def mark_initial_received (idx : ℕ) (st : RoutState) : RoutState :=
  if idx < st.agents.length then
    let ag := st.agents.getD idx dummyAgent
    if ag.has_initial then st
    else
      { st with agents := st.agents.set idx { ag with has_initial := true },
                flags := st.flags.set idx true,
                stats := { st.stats with delivered := st.stats.delivered + 1 } }
  else st

/-- One CarryOnly offer of message `m` from agent `oIdx` to agent `rIdx`
(`bindings.cpp` lines 393-409): counted only when the receiver is the
destination and does not already hold the message; the inventory is never
touched. -/
def carryOffer (oIdx rIdx : ℕ) (m : Message) (st : RoutState) : RoutState :=
  let r := st.agents.getD rIdx dummyAgent
  if r.id ≠ m.dst then st
  else if hasMsg r.messages m then st
  else
    let st1 :=
      { st with stats := { st.stats with tx := st.stats.tx + 1, rx := st.stats.rx + 1 },
                events := st.events ++ [⟨oIdx, rIdx, m⟩] }
    if m.seq = 1 then mark_initial_received rIdx st1 else st1

/-- One Epidemic offer of message `m` from `oIdx` to `rIdx`
(`bindings.cpp` lines 446-472): skipped when the message has no global
index, was received by the offerer this step, or is already held; otherwise
the message is materialised into the receiver's inventory, counters bump,
first-delivery bookkeeping runs, and the receiver's pair enters the
per-step received set. -/
def epidemicOffer (gms : List Message) (oIdx rIdx : ℕ) (m : Message)
    (st : RoutState) : RoutState :=
  match gms.findIdx? (fun gm => msgEq gm m) with
  | none => st
  | some g =>
    if (oIdx, g) ∈ st.received then st
    else
      let r := st.agents.getD rIdx dummyAgent
      if hasMsg r.messages m then st
      else
        let st1 :=
          { st with
            agents := st.agents.set rIdx { r with messages := r.messages ++ [m] },
            stats := { st.stats with tx := st.stats.tx + 1, rx := st.stats.rx + 1 },
            received := (rIdx, g) :: st.received,
            events := st.events ++ [⟨oIdx, rIdx, m⟩] }
        if m.seq = 1 then mark_initial_received rIdx st1 else st1

/-- Offer the listed messages one direction under CarryOnly. -/
def carryList (oIdx rIdx : ℕ) : List Message → RoutState → RoutState
  | [], st => st
  | m :: rest, st => carryList oIdx rIdx rest (carryOffer oIdx rIdx m st)

/-- Offer the listed messages one direction under Epidemic. -/
def offerList (gms : List Message) (oIdx rIdx : ℕ) :
    List Message → RoutState → RoutState
  | [], st => st
  | m :: rest, st => offerList gms oIdx rIdx rest (epidemicOffer gms oIdx rIdx m st)

/-- Process one encounter (`bindings.cpp` lines 382-495): both directions,
the second direction iterating the receiver-updated inventory exactly as the
index-based C++ loop does. -/
def processEncounter (mode : ℕ) (gms : List Message) (e : ℕ × ℕ)
    (st : RoutState) : RoutState :=
  if mode = 0 then
    let st1 := carryList e.1 e.2 ((st.agents.getD e.1 dummyAgent).messages) st
    carryList e.2 e.1 ((st1.agents.getD e.2 dummyAgent).messages) st1
  else
    let st1 := offerList gms e.1 e.2 ((st.agents.getD e.1 dummyAgent).messages) st
    offerList gms e.2 e.1 ((st1.agents.getD e.2 dummyAgent).messages) st1

/-- The routing pass: encounters processed strictly in detection order. -/
def routingPass (mode : ℕ) (gms : List Message) (encs : List (ℕ × ℕ))
    (st : RoutState) : RoutState :=
  encs.foldl (fun s e => processEncounter mode gms e s) st

/-- Delivery test of the reconciliation step (`bindings.cpp` lines 506-526):
some agent whose id equals the destination holds a matching message. -/
def deliveredTo (agents : List Agent) (gm : Message) : Bool :=
  agents.any fun a => a.id == gm.dst && hasMsg a.messages gm

/-- Remove delivered messages from the global store. -/
def reconcileGlobal (agents : List Agent) (gms : List Message) : List Message :=
  gms.filter fun gm => !deliveredTo agents gm

/-- Purge from every inventory the messages no longer present in the global
store (`bindings.cpp` lines 537-551). -/
def purgeAgents (gms : List Message) (agents : List Agent) : List Agent :=
  agents.map fun a =>
    { a with messages := a.messages.filter fun m => gms.any fun gm => msgEq gm m }

/-- The mobility phase of `dtnsim_step`: every agent advanced along its
edge. -/
def stepMobility (sqrtFn : ℚ → ℚ) (rnd : ℕ → ℕ) (dt : ℚ) (s : SimState) : List Agent :=
  (List.range s.agents.length).map fun i =>
    mobilityAgent sqrtFn s.nodes (rnd i) dt (s.agents.getD i dummyAgent)

/-- The routing phase of `dtnsim_step`: the encounter list of the moved
agents processed from an empty per-step received set. -/
def stepRout (sqrtFn : ℚ → ℚ) (rnd : ℕ → ℕ) (dt : ℚ) (s : SimState) : RoutState :=
  routingPass s.routing_mode s.messages (encounters (stepMobility sqrtFn rnd dt s))
    ⟨stepMobility sqrtFn rnd dt s, s.agent_delivered, s.stats, [], []⟩

/-- `dtnsim_step` (`bindings.cpp` lines 259-592): mobility, encounter
detection, routing, and store reconciliation. -/
def dtnsim_step (sqrtFn : ℚ → ℚ) (rnd : ℕ → ℕ) (dt : ℚ) (s : SimState) : SimState :=
  if s.agents.length = 0 then s else
  { s with
    agents := purgeAgents
      (reconcileGlobal (stepRout sqrtFn rnd dt s).agents s.messages)
      (stepRout sqrtFn rnd dt s).agents,
    messages := reconcileGlobal (stepRout sqrtFn rnd dt s).agents s.messages,
    agent_delivered := (stepRout sqrtFn rnd dt s).flags,
    stats := (stepRout sqrtFn rnd dt s).stats }

/-- Add the undirected edge i -- j to the adjacency, skipping a direction
already present (`bindings.cpp` lines 180-186). -/
def addEdge (i j : ℕ) (adj : List (List ℕ)) : List (List ℕ) :=
  let adj1 := if j ∈ adj.getD i [] then adj else adj.set i (adj.getD i [] ++ [j])
  if i ∈ adj1.getD j [] then adj1 else adj1.set j (adj1.getD j [] ++ [i])

/-- One node's k-nearest-neighbor pass (`bindings.cpp` lines 162-188):
sort all other nodes by squared distance, take the `min K (n-1)` nearest and
add undirected edges to them. -/
def knnPass (d2fn : ℕ → ℕ → ℚ) (n i : ℕ) (adj : List (List ℕ)) : List (List ℕ) :=
  let dists := ((List.range n).filter fun j => j ≠ i).map fun j => (d2fn i j, j)
  let sorted := dists.mergeSort fun a b => decide (a.1 ≤ b.1)
  let chosen := sorted.take (min 3 dists.length)
  chosen.foldl (fun acc p => addEdge i p.2 acc) adj

/-- The full adjacency build (`bindings.cpp` lines 159-189): empty when
`n ≤ 1`. -/
def buildAdjacency (d2fn : ℕ → ℕ → ℚ) (n : ℕ) : List (List ℕ) :=
  if n ≤ 1 then List.replicate n [] else
  (List.range n).foldl (fun adj i => knnPass d2fn n i adj) (List.replicate n [])

/-- The random draws `dtnsim_init` consumes: per-node positions, each
agent's start node draw and target-neighbor draw, and the two draws of the
message injection. -/
structure InitRand where
  pos : ℕ → ℚ × ℚ × ℚ
  startNode : ℕ → ℕ
  targetChoice : ℕ → ℕ
  srcR : ℕ
  dstR : ℕ

/-- Squared distance between two placed nodes. -/
def coordD2 (p q : ℚ × ℚ × ℚ) : ℚ :=
  (p.1 - q.1) * (p.1 - q.1) + (p.2.1 - q.2.1) * (p.2.1 - q.2.1) +
    (p.2.2 - q.2.2) * (p.2.2 - q.2.2)

/-- The node positions `dtnsim_init` draws (`bindings.cpp` lines 148-157). -/
def initCoords (R : InitRand) (n : ℕ) : List (ℚ × ℚ × ℚ) :=
  (List.range n).map R.pos

/-- The squared node-to-node distance function the graph builder sorts by. -/
def initD2 (R : InitRand) (n : ℕ) : ℕ → ℕ → ℚ := fun a b =>
  coordD2 ((initCoords R n).getD a (0, 0, 0)) ((initCoords R n).getD b (0, 0, 0))

/-- The static graph `dtnsim_init` builds: drawn positions plus the kNN
adjacency. -/
def initNodes (R : InitRand) (n : ℕ) : List GraphNode :=
  (List.range n).map fun i =>
    GraphNode.mk ((initCoords R n).getD i (0, 0, 0)).1 ((initCoords R n).getD i (0, 0, 0)).2.1
      ((initCoords R n).getD i (0, 0, 0)).2.2
      ((buildAdjacency (initD2 R n) n).getD i [])

/-- One freshly placed agent (`bindings.cpp` lines 199-218): on a random
node, walking toward a random neighbor (parked when there is none). -/
def initAgent (R : InitRand) (n : ℕ) (i : ℕ) : Agent :=
  let cur := if 0 < n then R.startNode i % n else 0
  let node := (initNodes R n).getD cur dummyNode
  let tgt :=
    if node.neighbors ≠ [] then
      node.neighbors.getD (R.targetChoice i % node.neighbors.length) 0
    else cur
  Agent.mk (i + 1) cur tgt 0 node.x node.y node.z [] false

def initAgents0 (R : InitRand) (n : ℕ) : List Agent :=
  (List.range n).map (initAgent R n)

/-- The random source agent index of the injected message. -/
def initSrc (R : InitRand) (n : ℕ) : ℕ := R.srcR % n

/-- The random destination agent index, distinct from the source. -/
def initDst (R : InitRand) (n : ℕ) : ℕ := (initSrc R n + 1 + R.dstR % (n - 1)) % n

/-- The single injected seq-1 message. -/
def initMsg (R : InitRand) (n : ℕ) : Message :=
  ⟨((initAgents0 R n).getD (initSrc R n) dummyAgent).id,
    ((initAgents0 R n).getD (initDst R n) dummyAgent).id, 1, 0, 0⟩

/-- The initial carrier after injection: same agent, message appended and
`has_initial` set. -/
def initCarrier (R : InitRand) (n : ℕ) : Agent :=
  { (initAgents0 R n).getD (initSrc R n) dummyAgent with
    messages := ((initAgents0 R n).getD (initSrc R n) dummyAgent).messages ++ [initMsg R n],
    has_initial := true }

/-- `dtnsim_init` (`bindings.cpp` lines 135-251): reset, place nodes, build
the kNN adjacency, place agents on random nodes walking toward a random
neighbor, select the routing mode by name (anything other than "epidemic"
falls back to CarryOnly), inject one seq-1 message between two distinct
random agents when `agent_count ≥ 2`, and set `delivered` to 1 for the
initial carrier. -/
def dtnsim_init (R : InitRand) (agent_count : ℕ) (routing_name : String) : SimState :=
  let mode := if routing_name = "epidemic" then 1 else 0
  if 2 ≤ agent_count then
    { nodes := initNodes R agent_count,
      agents := (initAgents0 R agent_count).set (initSrc R agent_count)
        (initCarrier R agent_count),
      messages := [initMsg R agent_count],
      agent_delivered := (List.replicate agent_count false).set (initSrc R agent_count) true,
      stats := ⟨1, 0, 0, 0⟩, seq_counter := 1, routing_mode := mode }
  else
    { nodes := initNodes R agent_count, agents := initAgents0 R agent_count,
      messages := [], agent_delivered := List.replicate agent_count false,
      stats := ⟨0, 0, 0, 0⟩, seq_counter := 0, routing_mode := mode }

/-- The snapshot view a position-buffer query fills in
(`NodePositionsBuffer`, `dtnsim_api.h` lines 59-66). -/
structure PosBufferView where
  positions : List ℚ
  count : ℕ
  version : ℕ
deriving DecidableEq

/-- `dtnsim_get_node_positions` (`bindings.cpp` lines 103-113): fills the
metadata and stamps the buffer with the current value of a static counter
that is incremented on every call, returning the view together with the
counter's next value. -/
def dtnsim_get_node_positions (content : List ℚ) (count verCounter : ℕ) :
    PosBufferView × ℕ :=
  (⟨content, count, verCounter⟩, verCounter + 1)

/-- `dtnsim_get_agent_positions` (`bindings.cpp` lines 115-124): identical
version-stamping pattern on the agent positions buffer. -/
def dtnsim_get_agent_positions (content : List ℚ) (count verCounter : ℕ) :
    PosBufferView × ℕ :=
  (⟨content, count, verCounter⟩, verCounter + 1)

/-- States reachable by one `dtnsim_init` followed by any sequence of
`dtnsim_step` calls (any routing policy, agent count, `dt`, random draws
and square-root routine). -/
inductive ReachableState : SimState → Prop
  | init (R : InitRand) (n : ℕ) (name : String) : ReachableState (dtnsim_init R n name)
  | step (sqrtFn : ℚ → ℚ) (rnd : ℕ → ℕ) (dt : ℚ) (s : SimState) :
      ReachableState s → ReachableState (dtnsim_step sqrtFn rnd dt s)

/-- Reachability when every step's `dt` is nonnegative (the documented
`step(dt_seconds ≥ 0)` contract). -/
inductive ReachableNN : SimState → Prop
  | init (R : InitRand) (n : ℕ) (name : String) : ReachableNN (dtnsim_init R n name)
  | step (sqrtFn : ℚ → ℚ) (rnd : ℕ → ℕ) (dt : ℚ) (s : SimState) :
      0 ≤ dt → ReachableNN s → ReachableNN (dtnsim_step sqrtFn rnd dt s)

set_option maxRecDepth 8000

/-! ### Generic list and key-equality helpers -/

theorem getD_set_self {α : Type} {l : List α} {i : ℕ} {x d : α} (h : i < l.length) :
    (l.set i x).getD i d = x := by
  simp [List.getD_eq_getElem?_getD, List.getElem?_set, h]

theorem getD_set_ne {α : Type} {l : List α} {i j : ℕ} {x d : α} (h : i ≠ j) :
    (l.set i x).getD j d = l.getD j d := by
  simp [List.getD_eq_getElem?_getD, List.getElem?_set, h]

theorem getD_set_or {α : Type} (l : List α) (i j : ℕ) (x d : α) :
    (l.set i x).getD j d = x ∨ (l.set i x).getD j d = l.getD j d := by
  by_cases h : i = j
  · subst h
    by_cases hi : i < l.length
    · exact Or.inl (getD_set_self hi)
    · right
      simp [List.getD_eq_getElem?_getD, List.getElem?_set, hi,
        List.getElem?_eq_none (le_of_not_lt hi)]
  · exact Or.inr (getD_set_ne h)

theorem msgEq_refl (m : Message) : msgEq m m = true := by
  simp [msgEq]

theorem msgEq_iff {a b : Message} :
    msgEq a b = true ↔ a.src = b.src ∧ a.dst = b.dst ∧ a.seq = b.seq := by
  simp [msgEq, Bool.and_eq_true, and_assoc]

theorem msgEq_symm {a b : Message} (h : msgEq a b = true) : msgEq b a = true := by
  rw [msgEq_iff] at h ⊢
  exact ⟨h.1.symm, h.2.1.symm, h.2.2.symm⟩

theorem msgEq_trans {a b c : Message} (h1 : msgEq a b = true) (h2 : msgEq b c = true) :
    msgEq a c = true := by
  rw [msgEq_iff] at h1 h2 ⊢
  exact ⟨h1.1.trans h2.1, h1.2.1.trans h2.2.1, h1.2.2.trans h2.2.2⟩

theorem msgEq_congr {a b : Message} (h : msgEq a b = true) (c : Message) :
    msgEq c a = msgEq c b := by
  rcases Bool.eq_false_or_eq_true (msgEq c a) with ha | ha <;>
    rcases Bool.eq_false_or_eq_true (msgEq c b) with hb | hb
  · rw [ha, hb]
  · exact absurd (msgEq_trans ha h) (by simp [hb])
  · exact absurd (msgEq_trans hb (msgEq_symm h)) (by simp [ha])
  · rw [ha, hb]

theorem msgEq_congr_swap {a b : Message} (h : msgEq a b = true) (c : Message) :
    msgEq a c = msgEq b c := by
  rcases Bool.eq_false_or_eq_true (msgEq a c) with ha | ha <;>
    rcases Bool.eq_false_or_eq_true (msgEq b c) with hb | hb
  · rw [ha, hb]
  · exact absurd (msgEq_trans (msgEq_symm h) ha) (by simp [hb])
  · exact absurd (msgEq_trans h hb) (by simp [ha])
  · rw [ha, hb]

theorem hasMsg_iff {inv : List Message} {m : Message} :
    hasMsg inv m = true ↔ ∃ x ∈ inv, msgEq x m = true := by
  simp [hasMsg, List.any_eq_true]

/-! ### C8: buffer version counters -/

/-- C8: the position-buffer snapshot queries do NOT satisfy the claimed
version contract: with no intervening content change, two consecutive
queries of either buffer return the same content but distinct versions,
because the code increments the static version counter on every call.
This contradicts `dtnsim_api.h`'s stated contract ("MUST increment when and
only when the underlying buffer content changes"), so the code, not the
claim, is at fault. -/
theorem buffer_version_bumps_without_content_change :
    (dtnsim_get_node_positions [0, 0, 0] 1 1).1.positions
        = (dtnsim_get_node_positions [0, 0, 0] 1
            (dtnsim_get_node_positions [0, 0, 0] 1 1).2).1.positions ∧
    (dtnsim_get_node_positions [0, 0, 0] 1 1).1.count
        = (dtnsim_get_node_positions [0, 0, 0] 1
            (dtnsim_get_node_positions [0, 0, 0] 1 1).2).1.count ∧
    (dtnsim_get_node_positions [0, 0, 0] 1 1).1.version
        ≠ (dtnsim_get_node_positions [0, 0, 0] 1
            (dtnsim_get_node_positions [0, 0, 0] 1 1).2).1.version ∧
    (dtnsim_get_agent_positions [0, 0, 0] 1 1).1.positions
        = (dtnsim_get_agent_positions [0, 0, 0] 1
            (dtnsim_get_agent_positions [0, 0, 0] 1 1).2).1.positions ∧
    (dtnsim_get_agent_positions [0, 0, 0] 1 1).1.version
        ≠ (dtnsim_get_agent_positions [0, 0, 0] 1
            (dtnsim_get_agent_positions [0, 0, 0] 1 1).2).1.version := by
  refine ⟨rfl, rfl, by simp [dtnsim_get_node_positions], rfl,
    by simp [dtnsim_get_agent_positions]⟩

/-! ### Frame facts about the routing pass -/

/-- The agent fields the routing pass can never change. -/
def agentFrame (a : Agent) : ℕ × ℕ × ℕ × ℚ × ℚ × ℚ × ℚ :=
  (a.id, a.current_node, a.target_node, a.progress, a.x, a.y, a.z)

/-- What every routing primitive preserves: the shape of the agent list, each
agent's frame fields, each inventory (up to growth), and the monotone
delivered flags. -/
structure StepPres (st st' : RoutState) : Prop where
  len : st'.agents.length = st.agents.length
  frame : ∀ j, agentFrame (st'.agents.getD j dummyAgent) = agentFrame (st.agents.getD j dummyAgent)
  msgs : ∀ j m, m ∈ (st.agents.getD j dummyAgent).messages → m ∈ (st'.agents.getD j dummyAgent).messages
  flagLen : st'.flags.length = st.flags.length
  flagMono : ∀ j, st.flags.getD j false = true → st'.flags.getD j false = true
  hiMono : ∀ j, (st.agents.getD j dummyAgent).has_initial = true →
      (st'.agents.getD j dummyAgent).has_initial = true

theorem StepPres.rfl (st : RoutState) : StepPres st st :=
  ⟨Eq.refl _, fun _ => Eq.refl _, fun _ _ h => h, Eq.refl _, fun _ h => h, fun _ h => h⟩

theorem StepPres.trans {a b c : RoutState} (h1 : StepPres a b) (h2 : StepPres b c) :
    StepPres a c where
  len := h2.len.trans h1.len
  frame j := (h2.frame j).trans (h1.frame j)
  msgs j m hm := h2.msgs j m (h1.msgs j m hm)
  flagLen := h2.flagLen.trans h1.flagLen
  flagMono j h := h2.flagMono j (h1.flagMono j h)
  hiMono j h := h2.hiMono j (h1.hiMono j h)


theorem getD_set_cases {α : Type} (l : List α) (i j : ℕ) (x d : α) :
    (i = j ∧ (l.set i x).getD j d = x) ∨ (l.set i x).getD j d = l.getD j d := by
  by_cases h : i = j
  · subst h
    by_cases hi : i < l.length
    · exact Or.inl ⟨rfl, getD_set_self hi⟩
    · right
      simp [List.getD_eq_getElem?_getD, List.getElem?_set, hi,
        List.getElem?_eq_none (le_of_not_lt hi)]
  · exact Or.inr (getD_set_ne h)

theorem StepPres.of_eq {st st' : RoutState} (ha : st'.agents = st.agents)
    (hf : st'.flags = st.flags) : StepPres st st' :=
  ⟨by rw [ha], fun j => by rw [ha], fun j m hm => by rw [ha]; exact hm, by rw [hf],
    fun j h => by rw [hf]; exact h, fun j h => by rw [ha]; exact h⟩

theorem stepPres_mark (i : ℕ) (st : RoutState) : StepPres st (mark_initial_received i st) := by
  simp only [mark_initial_received]
  split_ifs with h1 h2
  · exact StepPres.rfl st
  · refine ⟨by simp, ?_, ?_, by simp, ?_, ?_⟩
    · intro j
      rcases getD_set_cases st.agents i j
          { st.agents.getD i dummyAgent with has_initial := true } dummyAgent with ⟨rfl, h⟩ | h
      · rw [h]
        rfl
      · rw [h]
    · intro j m hm
      rcases getD_set_cases st.agents i j
          { st.agents.getD i dummyAgent with has_initial := true } dummyAgent with ⟨rfl, h⟩ | h
      · rw [h]
        exact hm
      · rw [h]
        exact hm
    · intro j hj
      rcases getD_set_cases st.flags i j true false with ⟨rfl, h⟩ | h <;> rw [h]
      exact hj
    · intro j hj
      rcases getD_set_cases st.agents i j
          { st.agents.getD i dummyAgent with has_initial := true } dummyAgent with ⟨rfl, h⟩ | h
      · rw [h]
      · rw [h]
        exact hj
  · exact StepPres.rfl st

theorem mark_received_eq (i : ℕ) (st : RoutState) :
    (mark_initial_received i st).received = st.received := by
  simp only [mark_initial_received]
  split_ifs <;> rfl

theorem mark_events_eq (i : ℕ) (st : RoutState) :
    (mark_initial_received i st).events = st.events := by
  simp only [mark_initial_received]
  split_ifs <;> rfl

theorem mark_tx_eq (i : ℕ) (st : RoutState) :
    (mark_initial_received i st).stats.tx = st.stats.tx := by
  simp only [mark_initial_received]
  split_ifs <;> rfl

theorem mark_rx_eq (i : ℕ) (st : RoutState) :
    (mark_initial_received i st).stats.rx = st.stats.rx := by
  simp only [mark_initial_received]
  split_ifs <;> rfl

theorem mark_msgs_eq (i j : ℕ) (st : RoutState) :
    ((mark_initial_received i st).agents.getD j dummyAgent).messages
      = (st.agents.getD j dummyAgent).messages := by
  simp only [mark_initial_received]
  split_ifs with h1 h2
  · rfl
  · rcases getD_set_cases st.agents i j
        { st.agents.getD i dummyAgent with has_initial := true } dummyAgent with ⟨rfl, h⟩ | h
    · rw [h]
    · rw [h]
  · rfl

theorem mark_agents_id_eq (i j : ℕ) (st : RoutState) :
    ((mark_initial_received i st).agents.getD j dummyAgent).id
      = (st.agents.getD j dummyAgent).id := by
  simp only [mark_initial_received]
  split_ifs with h1 h2
  · rfl
  · rcases getD_set_cases st.agents i j
        { st.agents.getD i dummyAgent with has_initial := true } dummyAgent with ⟨rfl, h⟩ | h
    · rw [h]
    · rw [h]
  · rfl

theorem stepPres_carryOffer (o r : ℕ) (m : Message) (st : RoutState) :
    StepPres st (carryOffer o r m st) := by
  simp only [carryOffer]
  split_ifs with h1 h2 h3
  · exact StepPres.rfl st
  · exact StepPres.rfl st
  · refine StepPres.trans ?_ (stepPres_mark r _)
    exact StepPres.of_eq rfl rfl
  · exact StepPres.of_eq rfl rfl

theorem stepPres_addMsg (r : ℕ) (m : Message) (st : RoutState) (s2 : RoutingStats)
    (rc : List (ℕ × ℕ)) (ev : List TransferEvent) :
    StepPres st
      { st with
        agents := st.agents.set r
          { st.agents.getD r dummyAgent with
            messages := (st.agents.getD r dummyAgent).messages ++ [m] },
        stats := s2, received := rc, events := ev } := by
  refine ⟨by simp, ?_, ?_, by simp, fun j h => h, ?_⟩
  · intro j
    rcases getD_set_cases st.agents r j
        { st.agents.getD r dummyAgent with
          messages := (st.agents.getD r dummyAgent).messages ++ [m] } dummyAgent with
      ⟨rfl, h⟩ | h
    · rw [h]
      rfl
    · rw [h]
  · intro j mm hm
    rcases getD_set_cases st.agents r j
        { st.agents.getD r dummyAgent with
          messages := (st.agents.getD r dummyAgent).messages ++ [m] } dummyAgent with
      ⟨rfl, h⟩ | h
    · rw [h]
      exact List.mem_append_left _ hm
    · rw [h]
      exact hm
  · intro j h
    rcases getD_set_cases st.agents r j
        { st.agents.getD r dummyAgent with
          messages := (st.agents.getD r dummyAgent).messages ++ [m] } dummyAgent with
      ⟨rfl, h'⟩ | h'
    · rw [h']
      exact h
    · rw [h']
      exact h

theorem stepPres_epidemicOffer (gms : List Message) (o r : ℕ) (m : Message)
    (st : RoutState) : StepPres st (epidemicOffer gms o r m st) := by
  simp only [epidemicOffer]
  split
  · exact StepPres.rfl st
  · split_ifs with h1 h2 h3
    · exact StepPres.rfl st
    · exact StepPres.rfl st
    · exact (stepPres_addMsg r m st _ _ _).trans (stepPres_mark r _)
    · exact stepPres_addMsg r m st _ _ _

theorem stepPres_carryList (o r : ℕ) (ms : List Message) (st : RoutState) :
    StepPres st (carryList o r ms st) := by
  induction ms generalizing st with
  | nil => exact StepPres.rfl st
  | cons m rest ih =>
    exact StepPres.trans (stepPres_carryOffer o r m st) (ih _)

theorem stepPres_offerList (gms : List Message) (o r : ℕ) (ms : List Message)
    (st : RoutState) : StepPres st (offerList gms o r ms st) := by
  induction ms generalizing st with
  | nil => exact StepPres.rfl st
  | cons m rest ih =>
    exact StepPres.trans (stepPres_epidemicOffer gms o r m st) (ih _)

theorem stepPres_processEncounter (mode : ℕ) (gms : List Message) (e : ℕ × ℕ)
    (st : RoutState) : StepPres st (processEncounter mode gms e st) := by
  simp only [processEncounter]
  split_ifs with h
  · exact StepPres.trans (stepPres_carryList e.1 e.2 _ st) (stepPres_carryList e.2 e.1 _ _)
  · exact StepPres.trans (stepPres_offerList gms e.1 e.2 _ st) (stepPres_offerList gms e.2 e.1 _ _)

theorem stepPres_routingPass (mode : ℕ) (gms : List Message) (encs : List (ℕ × ℕ))
    (st : RoutState) : StepPres st (routingPass mode gms encs st) := by
  induction encs generalizing st with
  | nil => exact StepPres.rfl st
  | cons e rest ih =>
    exact StepPres.trans (stepPres_processEncounter mode gms e st) (ih _)

/-! ### C2: CarryOnly routing facts -/

/-- Invariant of the CarryOnly routing pass relative to the pass's starting
agents `as0` and stats `stats0`: inventories are untouched, ids are stable,
`tx`/`rx` each advanced exactly once per accepted transfer, and every
accepted transfer went to the message's destination agent. -/
def CarryInv (as0 : List Agent) (stats0 : RoutingStats) (st : RoutState) : Prop :=
  (∀ j, (st.agents.getD j dummyAgent).messages = (as0.getD j dummyAgent).messages) ∧
  (∀ j, (st.agents.getD j dummyAgent).id = (as0.getD j dummyAgent).id) ∧
  st.stats.tx = stats0.tx + st.events.length ∧
  st.stats.rx = stats0.rx + st.events.length ∧
  (∀ e ∈ st.events, (as0.getD e.receiver dummyAgent).id = e.msg.dst)

theorem carryInv_offer {as0 : List Agent} {stats0 : RoutingStats} (o r : ℕ)
    (m : Message) {st : RoutState} (h : CarryInv as0 stats0 st) :
    CarryInv as0 stats0 (carryOffer o r m st) := by
  obtain ⟨hm, hid, htx, hrx, hev⟩ := h
  simp only [carryOffer]
  split_ifs with h1 h2 h3
  · exact ⟨hm, hid, htx, hrx, hev⟩
  · exact ⟨hm, hid, htx, hrx, hev⟩
  · have hd := not_not.mp h1
    refine ⟨?_, ?_, ?_, ?_, ?_⟩
    · intro j
      rw [mark_msgs_eq]
      exact hm j
    · intro j
      rw [mark_agents_id_eq]
      exact hid j
    · rw [mark_tx_eq, mark_events_eq]
      simp only [List.length_append, List.length_cons, List.length_nil]
      omega
    · rw [mark_rx_eq, mark_events_eq]
      simp only [List.length_append, List.length_cons, List.length_nil]
      omega
    · rw [mark_events_eq]
      intro e he
      rcases List.mem_append.mp he with he | he
      · exact hev e he
      · have he' : e = ⟨o, r, m⟩ := by simpa using he
        subst he'
        rw [← hid r]
        exact hd
  · have hd := not_not.mp h1
    refine ⟨hm, hid, ?_, ?_, ?_⟩
    · simp only [List.length_append, List.length_cons, List.length_nil]
      omega
    · simp only [List.length_append, List.length_cons, List.length_nil]
      omega
    · intro e he
      rcases List.mem_append.mp he with he | he
      · exact hev e he
      · have he' : e = ⟨o, r, m⟩ := by simpa using he
        subst he'
        rw [← hid r]
        exact hd

theorem carryInv_carryList {as0 : List Agent} {stats0 : RoutingStats} (o r : ℕ)
    (ms : List Message) {st : RoutState} (h : CarryInv as0 stats0 st) :
    CarryInv as0 stats0 (carryList o r ms st) := by
  induction ms generalizing st with
  | nil => exact h
  | cons m rest ih => exact ih (carryInv_offer o r m h)

theorem carryInv_processEncounter {as0 : List Agent} {stats0 : RoutingStats}
    (gms : List Message) (e : ℕ × ℕ) {st : RoutState}
    (h : CarryInv as0 stats0 st) :
    CarryInv as0 stats0 (processEncounter 0 gms e st) := by
  simp only [processEncounter, eq_self_iff_true, if_true]
  exact carryInv_carryList e.2 e.1 _ (carryInv_carryList e.1 e.2 _ h)

theorem carryInv_routingPass {as0 : List Agent} {stats0 : RoutingStats}
    (gms : List Message) (encs : List (ℕ × ℕ)) {st : RoutState}
    (h : CarryInv as0 stats0 st) :
    CarryInv as0 stats0 (routingPass 0 gms encs st) := by
  induction encs generalizing st with
  | nil => exact h
  | cons e rest ih => exact ih (carryInv_processEncounter gms e h)

/-- Concrete 2-agent CarryOnly scenario: two graph nodes 40 apart (within
the communication range of 80), agent 0 on node 0, agent 1 on node 1, and
the injected seq-1 message travelling from agent id 1 to agent id 2. -/
def c2R : InitRand :=
  ⟨fun i => if i = 0 then (0, 0, 0) else (40, 0, 0), fun i => i, fun _ => 0, 0, 0⟩

/-- C2: under CarryOnly the routing pass bumps `tx` and `rx` together, once
per accepted transfer, every accepted transfer's receiver is the message's
destination agent, and no inventory is ever modified; consequently, in a
step in which the sole message's carrier and its destination are within
communication range, `tx` and `rx` each increase by exactly 1, the
destination's delivered flag becomes true, the destination's inventory
stays empty, and the message survives in the global store. -/
theorem carryonly_direct_delivery_only :
    (∀ (gms : List Message) (encs : List (ℕ × ℕ)) (agents : List Agent)
        (flags : List Bool) (stats : RoutingStats),
      (∀ j, ((routingPass 0 gms encs ⟨agents, flags, stats, [], []⟩).agents.getD j
            dummyAgent).messages = (agents.getD j dummyAgent).messages) ∧
      (routingPass 0 gms encs ⟨agents, flags, stats, [], []⟩).stats.tx
        = stats.tx + (routingPass 0 gms encs ⟨agents, flags, stats, [], []⟩).events.length ∧
      (routingPass 0 gms encs ⟨agents, flags, stats, [], []⟩).stats.rx
        = stats.rx + (routingPass 0 gms encs ⟨agents, flags, stats, [], []⟩).events.length ∧
      (∀ e ∈ (routingPass 0 gms encs ⟨agents, flags, stats, [], []⟩).events,
        (agents.getD e.receiver dummyAgent).id = e.msg.dst)) ∧
    ((dtnsim_step (fun _ => 40) (fun _ => 0) 0 (dtnsim_init c2R 2 "carryonly")).stats.tx = 1 ∧
      (dtnsim_step (fun _ => 40) (fun _ => 0) 0 (dtnsim_init c2R 2 "carryonly")).stats.rx = 1 ∧
      (dtnsim_step (fun _ => 40) (fun _ => 0) 0
          (dtnsim_init c2R 2 "carryonly")).agent_delivered.getD 1 false = true ∧
      (dtnsim_step (fun _ => 40) (fun _ => 0) 0 (dtnsim_init c2R 2 "carryonly")).messages
        = (dtnsim_init c2R 2 "carryonly").messages ∧
      (dtnsim_init c2R 2 "carryonly").messages.length = 1 ∧
      ((dtnsim_step (fun _ => 40) (fun _ => 0) 0
          (dtnsim_init c2R 2 "carryonly")).agents.getD 1 dummyAgent).messages = []) := by
  constructor
  · intro gms encs agents flags stats
    have h0 : CarryInv agents stats ⟨agents, flags, stats, [], []⟩ :=
      ⟨fun _ => rfl, fun _ => rfl, rfl, rfl, fun e he => absurd he (List.not_mem_nil e)⟩
    have h1 := carryInv_routingPass gms encs h0
    exact ⟨h1.1, h1.2.2.1, h1.2.2.2.1, h1.2.2.2.2⟩
  · exact ⟨by with_unfolding_all decide, by with_unfolding_all decide,
      by with_unfolding_all decide, by with_unfolding_all decide,
      by with_unfolding_all decide, by with_unfolding_all decide⟩

/-! ### C3: Epidemic same-step anti-reforward -/

theorem findIdx?_congr {α : Type} {p q : α → Bool} (h : ∀ x, p x = q x) :
    ∀ (l : List α) (i : ℕ), List.findIdx? p l i = List.findIdx? q l i := by
  intro l
  induction l with
  | nil => intro i; rfl
  | cons x xs ih =>
    intro i
    rw [List.findIdx?_cons, List.findIdx?_cons, h x]
    cases q x
    · simp only [Bool.false_eq_true, if_false]
      exact ih _
    · rfl

/-- The relation every pair of (earlier, later) transfer events of one
epidemic routing pass satisfies: a later event never re-offers, from the
agent that received it, a message (key-)equal to the one received earlier. -/
def NoReforward (a b : TransferEvent) : Prop :=
  a.receiver = b.offerer → msgEq a.msg b.msg = false

/-- Invariant of the epidemic routing pass: the trace so far is
reforward-free, and every past receipt is recorded in the per-step
received set under the message's global index. -/
def EpInv (gms : List Message) (st : RoutState) : Prop :=
  st.events.Pairwise NoReforward ∧
  ∀ e ∈ st.events, ∃ g, List.findIdx? (fun gm => msgEq gm e.msg) gms 0 = some g ∧
    (e.receiver, g) ∈ st.received

theorem epInv_mark (i : ℕ) {gms : List Message} {st : RoutState} (h : EpInv gms st) :
    EpInv gms (mark_initial_received i st) := by
  obtain ⟨hp, hr⟩ := h
  rw [EpInv, mark_events_eq, mark_received_eq]
  exact ⟨hp, hr⟩

theorem epInv_offer {gms : List Message} (o r : ℕ) (m : Message) {st : RoutState}
    (h : EpInv gms st) : EpInv gms (epidemicOffer gms o r m st) := by
  obtain ⟨hp, hr⟩ := h
  simp only [epidemicOffer]
  split
  · exact ⟨hp, hr⟩
  · rename_i g hfind
    split_ifs with h1 h2 h3
    · exact ⟨hp, hr⟩
    · exact ⟨hp, hr⟩
    · refine epInv_mark r ?_
      refine ⟨?_, ?_⟩
      · rw [List.pairwise_append]
        refine ⟨hp, List.pairwise_singleton _ _, ?_⟩
        intro a ha b hb
        have hb' : b = ⟨o, r, m⟩ := by simpa using hb
        subst hb'
        intro hrec
        by_contra hne
        have htrue : msgEq a.msg m = true := by
          rcases Bool.eq_false_or_eq_true (msgEq a.msg m) with h' | h'
          · exact h'
          · exact absurd h' hne
        obtain ⟨ga, hga, hmem⟩ := hr a ha
        have hsame : List.findIdx? (fun gm => msgEq gm a.msg) gms 0
            = List.findIdx? (fun gm => msgEq gm m) gms 0 :=
          findIdx?_congr (fun x => msgEq_congr htrue x) gms 0
        rw [hsame, hfind] at hga
        have hga' : g = ga := by simpa using hga
        subst hga'
        rw [hrec] at hmem
        exact h1 hmem
      · intro e he
        rcases List.mem_append.mp he with he | he
        · obtain ⟨ge, hge, hmem⟩ := hr e he
          exact ⟨ge, hge, List.mem_cons_of_mem _ hmem⟩
        · have he' : e = ⟨o, r, m⟩ := by simpa using he
          subst he'
          exact ⟨g, hfind, List.mem_cons_self _ _⟩
    · refine ⟨?_, ?_⟩
      · rw [List.pairwise_append]
        refine ⟨hp, List.pairwise_singleton _ _, ?_⟩
        intro a ha b hb
        have hb' : b = ⟨o, r, m⟩ := by simpa using hb
        subst hb'
        intro hrec
        by_contra hne
        have htrue : msgEq a.msg m = true := by
          rcases Bool.eq_false_or_eq_true (msgEq a.msg m) with h' | h'
          · exact h'
          · exact absurd h' hne
        obtain ⟨ga, hga, hmem⟩ := hr a ha
        have hsame : List.findIdx? (fun gm => msgEq gm a.msg) gms 0
            = List.findIdx? (fun gm => msgEq gm m) gms 0 :=
          findIdx?_congr (fun x => msgEq_congr htrue x) gms 0
        rw [hsame, hfind] at hga
        have hga' : g = ga := by simpa using hga
        subst hga'
        rw [hrec] at hmem
        exact h1 hmem
      · intro e he
        rcases List.mem_append.mp he with he | he
        · obtain ⟨ge, hge, hmem⟩ := hr e he
          exact ⟨ge, hge, List.mem_cons_of_mem _ hmem⟩
        · have he' : e = ⟨o, r, m⟩ := by simpa using he
          subst he'
          exact ⟨g, hfind, List.mem_cons_self _ _⟩

theorem epInv_offerList {gms : List Message} (o r : ℕ) (ms : List Message)
    {st : RoutState} (h : EpInv gms st) : EpInv gms (offerList gms o r ms st) := by
  induction ms generalizing st with
  | nil => exact h
  | cons m rest ih => exact ih (epInv_offer o r m h)

theorem epInv_processEncounter {gms : List Message} (e : ℕ × ℕ) {st : RoutState}
    (h : EpInv gms st) : EpInv gms (processEncounter 1 gms e st) := by
  simp only [processEncounter]
  rw [if_neg one_ne_zero]
  exact epInv_offerList e.2 e.1 _ (epInv_offerList e.1 e.2 _ h)

theorem epInv_routingPass {gms : List Message} (encs : List (ℕ × ℕ)) {st : RoutState}
    (h : EpInv gms st) : EpInv gms (routingPass 1 gms encs st) := by
  induction encs generalizing st with
  | nil => exact h
  | cons e rest ih => exact ih (epInv_processEncounter e h)

/-- C3: in one epidemic routing pass — exactly as `dtnsim_step` invokes it,
with the per-step received set empty at the start — a message an agent
receives during the step is never transferred onward by that agent later in
the same step, and every accepted transfer records the (receiver, global
message index) pair in the per-step received set. -/
theorem epidemic_no_same_step_reforward :
    ∀ (gms : List Message) (encs : List (ℕ × ℕ)) (agents : List Agent)
      (flags : List Bool) (stats : RoutingStats),
      (routingPass 1 gms encs ⟨agents, flags, stats, [], []⟩).events.Pairwise NoReforward ∧
      ∀ e ∈ (routingPass 1 gms encs ⟨agents, flags, stats, [], []⟩).events,
        ∃ g, List.findIdx? (fun gm => msgEq gm e.msg) gms 0 = some g ∧
          (e.receiver, g) ∈ (routingPass 1 gms encs ⟨agents, flags, stats, [], []⟩).received := by
  intro gms encs agents flags stats
  have h0 : EpInv gms ⟨agents, flags, stats, [], []⟩ :=
    ⟨List.Pairwise.nil, fun e he => absurd he (List.not_mem_nil e)⟩
  exact epInv_routingPass encs h0

/-! ### C5: encounter detection — truncation arithmetic -/

theorem truncQ_mono {a b : ℚ} (h : a ≤ b) : truncQ a ≤ truncQ b := by
  unfold truncQ
  split_ifs with ha hb hb
  · exact Int.floor_le_floor h
  · exact absurd (ha.trans h) hb
  · calc ⌈a⌉ ≤ ⌈(0 : ℚ)⌉ := Int.ceil_le_ceil (le_of_not_le ha)
    _ = 0 := by simp
    _ ≤ ⌊b⌋ := Int.le_floor.mpr (by exact_mod_cast hb)
  · exact Int.ceil_le_ceil h

theorem truncQ_le_add_one {a b : ℚ} (h : a ≤ b + 1) : truncQ a ≤ truncQ b + 1 := by
  unfold truncQ
  split_ifs with ha hb hb
  · calc ⌊a⌋ ≤ ⌊b + 1⌋ := Int.floor_le_floor h
    _ = ⌊b⌋ + 1 := Int.floor_add_one b
  · have ha1 : a < 1 := lt_of_le_of_lt h (by linarith [lt_of_not_le hb])
    have hfa : ⌊a⌋ = 0 := Int.floor_eq_zero_iff.mpr ⟨ha, ha1⟩
    have hcb : (-1 : ℤ) ≤ ⌈b⌉ := by
      have hb1 : (-1 : ℚ) ≤ b := by linarith
      calc (-1 : ℤ) = ⌈((-1 : ℤ) : ℚ)⌉ := (Int.ceil_intCast (-1)).symm
      _ ≤ ⌈b⌉ := Int.ceil_le_ceil (by exact_mod_cast hb1)
    omega
  · have : ⌈a⌉ ≤ 0 := by
      calc ⌈a⌉ ≤ ⌈(0 : ℚ)⌉ := Int.ceil_le_ceil (le_of_not_le ha)
      _ = 0 := by simp
    have : (0 : ℤ) ≤ ⌊b⌋ := Int.le_floor.mpr (by exact_mod_cast hb)
    omega
  · calc ⌈a⌉ ≤ ⌈b + 1⌉ := Int.ceil_le_ceil h
    _ = ⌈b⌉ + 1 := by
      rw [Int.ceil_add_one]

theorem truncQ_adj {a b : ℚ} (h : |a - b| ≤ 1) :
    truncQ b + -1 ≤ truncQ a ∧ truncQ a ≤ truncQ b + 1 := by
  rw [abs_le] at h
  constructor
  · have : truncQ b ≤ truncQ a + 1 := truncQ_le_add_one (by linarith)
    omega
  · exact truncQ_le_add_one (by linarith)

theorem coord_bound {dx s : ℚ} (hs : 0 ≤ s) (h : dx * dx ≤ s * s) : |dx| ≤ s := by
  rw [abs_le]
  constructor <;> nlinarith

/-- Within communication range, the two agents' grid cells differ by at most
one in every coordinate. -/
theorem cells_adjacent {a b : Agent}
    (h : dist2A a b ≤ COMM_RANGE * COMM_RANGE) :
    ((cell_for b).1 + ((cell_for a).1 - (cell_for b).1),
      (cell_for b).2.1 + ((cell_for a).2.1 - (cell_for b).2.1),
      (cell_for b).2.2 + ((cell_for a).2.2 - (cell_for b).2.2)) = cell_for a ∧
    ((cell_for a).1 - (cell_for b).1, (cell_for a).2.1 - (cell_for b).2.1,
      (cell_for a).2.2 - (cell_for b).2.2) ∈ neighborOffsets := by
  have hxx : (a.x - b.x) * (a.x - b.x) ≤ COMM_RANGE * COMM_RANGE := by
    have h1 : 0 ≤ (a.y - b.y) * (a.y - b.y) := mul_self_nonneg _
    have h2 : 0 ≤ (a.z - b.z) * (a.z - b.z) := mul_self_nonneg _
    unfold dist2A at h
    linarith
  have hyy : (a.y - b.y) * (a.y - b.y) ≤ COMM_RANGE * COMM_RANGE := by
    have h1 : 0 ≤ (a.x - b.x) * (a.x - b.x) := mul_self_nonneg _
    have h2 : 0 ≤ (a.z - b.z) * (a.z - b.z) := mul_self_nonneg _
    unfold dist2A at h
    linarith
  have hzz : (a.z - b.z) * (a.z - b.z) ≤ COMM_RANGE * COMM_RANGE := by
    have h1 : 0 ≤ (a.x - b.x) * (a.x - b.x) := mul_self_nonneg _
    have h2 : 0 ≤ (a.y - b.y) * (a.y - b.y) := mul_self_nonneg _
    unfold dist2A at h
    linarith
  have hx := coord_bound (by norm_num [COMM_RANGE]) hxx
  have hy := coord_bound (by norm_num [COMM_RANGE]) hyy
  have hz := coord_bound (by norm_num [COMM_RANGE]) hzz
  have hdivx : |a.x / COMM_RANGE - b.x / COMM_RANGE| ≤ 1 := by
    rw [div_sub_div_same, abs_div]
    rw [show |COMM_RANGE| = COMM_RANGE by norm_num [COMM_RANGE]]
    rw [div_le_one (by norm_num [COMM_RANGE])]
    exact hx
  have hdivy : |a.y / COMM_RANGE - b.y / COMM_RANGE| ≤ 1 := by
    rw [div_sub_div_same, abs_div]
    rw [show |COMM_RANGE| = COMM_RANGE by norm_num [COMM_RANGE]]
    rw [div_le_one (by norm_num [COMM_RANGE])]
    exact hy
  have hdivz : |a.z / COMM_RANGE - b.z / COMM_RANGE| ≤ 1 := by
    rw [div_sub_div_same, abs_div]
    rw [show |COMM_RANGE| = COMM_RANGE by norm_num [COMM_RANGE]]
    rw [div_le_one (by norm_num [COMM_RANGE])]
    exact hz
  have hax := truncQ_adj hdivx
  have hay := truncQ_adj hdivy
  have haz := truncQ_adj hdivz
  constructor
  · simp only [cell_for]
    refine Prod.ext ?_ (Prod.ext ?_ ?_) <;> simp
  · simp only [cell_for] at hax hay haz ⊢
    have e1 : truncQ (a.x / COMM_RANGE) - truncQ (b.x / COMM_RANGE) = -1 ∨
        truncQ (a.x / COMM_RANGE) - truncQ (b.x / COMM_RANGE) = 0 ∨
        truncQ (a.x / COMM_RANGE) - truncQ (b.x / COMM_RANGE) = 1 := by omega
    have e2 : truncQ (a.y / COMM_RANGE) - truncQ (b.y / COMM_RANGE) = -1 ∨
        truncQ (a.y / COMM_RANGE) - truncQ (b.y / COMM_RANGE) = 0 ∨
        truncQ (a.y / COMM_RANGE) - truncQ (b.y / COMM_RANGE) = 1 := by omega
    have e3 : truncQ (a.z / COMM_RANGE) - truncQ (b.z / COMM_RANGE) = -1 ∨
        truncQ (a.z / COMM_RANGE) - truncQ (b.z / COMM_RANGE) = 0 ∨
        truncQ (a.z / COMM_RANGE) - truncQ (b.z / COMM_RANGE) = 1 := by omega
    rcases e1 with e1 | e1 | e1 <;> rcases e2 with e2 | e2 | e2 <;>
      rcases e3 with e3 | e3 | e3 <;> rw [e1, e2, e3] <;> simp [neighborOffsets]

theorem dist2A_comm (a b : Agent) : dist2A a b = dist2A b a := by
  unfold dist2A
  ring

theorem count_flatMap {α β : Type} [BEq β] (f : α → List β) (b : β) :
    ∀ l : List α, ((l.flatMap f).count b) = (l.map fun x => (f x).count b).sum := by
  intro l
  induction l with
  | nil => rfl
  | cons x xs ih =>
    rw [List.flatMap_cons, List.count_append, List.map_cons, List.sum_cons, ih]

theorem count_filterMap {α β : Type} [BEq β] (g : α → Option β) (b : β) :
    ∀ l : List α, ((l.filterMap g).count b) = l.countP fun a => g a == some b := by
  intro l
  induction l with
  | nil => rfl
  | cons x xs ih =>
    rw [List.filterMap_cons, List.countP_cons]
    cases hg : g x with
    | none =>
      simp only [hg]
      have hnone : ((none : Option β) == some b) = false := rfl
      rw [hnone]
      simpa using ih
    | some y =>
      simp only [hg]
      rw [List.count_cons, ih]
      have hsome : ((some y == some b)) = (y == b) := rfl
      rw [hsome]

theorem countP_range_single (j : ℕ) (p : ℕ → Bool) (h : ∀ x, p x = true → x = j) :
    ∀ n : ℕ, (List.range n).countP p = if j < n ∧ p j = true then 1 else 0 := by
  intro n
  induction n with
  | zero => simp
  | succ n ih =>
    rw [List.range_succ, List.countP_append, ih]
    have hsing : List.countP p [n] = if p n = true then 1 else 0 := by
      rw [List.countP_cons]
      simp
    rw [hsing]
    by_cases hn : p n = true
    · have hj : n = j := h n hn
      subst hj
      simp [hn, Nat.lt_irrefl, Nat.lt_succ_of_le]
    · have hj2 : j < n ∨ ¬(j < n.succ) ∨ (j = n) := by omega
      by_cases hjn : j < n
      · simp [hjn, hn, Nat.lt_succ_of_lt hjn]
      · by_cases hjn2 : j = n
        · subst hjn2
          simp [hn, hjn]
        · have : ¬ j < n + 1 := by omega
          simp [hjn, hn, this]

theorem sum_map_ite_unique {α : Type} [DecidableEq α] (d : α) (C : Prop) [Decidable C] :
    ∀ l : List α, l.Nodup →
      (l.map fun o => if o = d ∧ C then 1 else 0).sum = if d ∈ l ∧ C then 1 else 0 := by
  intro l
  induction l with
  | nil => simp
  | cons x xs ih =>
    intro hnd
    rw [List.map_cons, List.sum_cons, ih hnd.of_cons]
    rcases eq_or_ne x d with rfl | hne
    · have hdx : x ∉ xs := (List.nodup_cons.mp hnd).1
      by_cases hc : C
      · simp [hc, hdx]
      · simp [hc]
    · by_cases hdxs : d ∈ xs
      · by_cases hc : C <;> simp [hne, hdxs, hc, Ne.symm hne]
      · by_cases hc : C <;> simp [hne, hdxs, hc, Ne.symm hne]

theorem sum_map_range_single (i : ℕ) (f : ℕ → ℕ) (h : ∀ k, k ≠ i → f k = 0) :
    ∀ n : ℕ, ((List.range n).map f).sum = if i < n then f i else 0 := by
  intro n
  induction n with
  | zero => simp
  | succ n ih =>
    rw [List.range_succ, List.map_append, List.sum_append, ih]
    simp only [List.map_cons, List.map_nil, List.sum_cons, List.sum_nil]
    by_cases hn : n = i
    · subst hn
      simp [Nat.lt_irrefl, Nat.lt_succ_of_le]
    · rw [h n hn]
      by_cases hin : i < n
      · simp [hin, Nat.lt_succ_of_lt hin]
      · have : ¬ i < n + 1 := by omega
        simp [hin, this]


theorem encountersFor_sound {agents : List Agent} {k : ℕ} {p : ℕ × ℕ}
    (hp : p ∈ encountersFor agents k) :
    p.1 = k ∧ k < p.2 ∧ p.2 < agents.length ∧
      dist2A (agents.getD k dummyAgent) (agents.getD p.2 dummyAgent)
        ≤ COMM_RANGE * COMM_RANGE := by
  simp only [encountersFor, List.mem_flatMap] at hp
  obtain ⟨o, ho, hmem⟩ := hp
  rw [List.mem_filterMap] at hmem
  obtain ⟨idx, hidx, hg⟩ := hmem
  simp only [bucket, List.mem_filter, List.mem_range] at hidx
  by_cases h1 : idx ≤ k
  · rw [if_pos h1] at hg
    cases hg
  · rw [if_neg h1] at hg
    by_cases h2 : dist2A (agents.getD k dummyAgent) (agents.getD idx dummyAgent)
        ≤ COMM_RANGE * COMM_RANGE
    · rw [if_pos h2] at hg
      have hp' : (k, idx) = p := Option.some.inj hg
      subst hp'
      exact ⟨rfl, Nat.lt_of_not_le h1, hidx.1, h2⟩
    · rw [if_neg h2] at hg
      cases hg

theorem count_filterMap_decide {α β : Type} [BEq β] [LawfulBEq β] [DecidableEq β]
    (g : α → Option β) (b : β) :
    ∀ l : List α, ((l.filterMap g).count b) = l.countP fun a => decide (g a = some b) := by
  intro l
  induction l with
  | nil => rfl
  | cons x xs ih =>
    rw [List.filterMap_cons, List.countP_cons]
    cases hg : g x with
    | none =>
      simp only [hg]
      simpa using ih
    | some y =>
      simp only [hg]
      rw [List.count_cons, ih]
      congr 1
      rcases eq_or_ne y b with rfl | hne
      · simp
      · simp [hne]

theorem encountersFor_count (agents : List Agent) (i j : ℕ) :
    (encountersFor agents i).count (i, j)
      = if i < j ∧ j < agents.length ∧
          dist2A (agents.getD i dummyAgent) (agents.getD j dummyAgent)
            ≤ COMM_RANGE * COMM_RANGE then 1 else 0 := by
  simp only [encountersFor]
  rw [count_flatMap]
  have hinner : ∀ o ∈ neighborOffsets,
      ((bucket agents ((cell_for (agents.getD i dummyAgent)).1 + o.1,
          (cell_for (agents.getD i dummyAgent)).2.1 + o.2.1,
          (cell_for (agents.getD i dummyAgent)).2.2 + o.2.2)).filterMap fun idx =>
        if idx ≤ i then none
        else if dist2A (agents.getD i dummyAgent) (agents.getD idx dummyAgent)
            ≤ COMM_RANGE * COMM_RANGE then some (i, idx) else none).count (i, j)
      = if o = ((cell_for (agents.getD j dummyAgent)).1
            - (cell_for (agents.getD i dummyAgent)).1,
          (cell_for (agents.getD j dummyAgent)).2.1
            - (cell_for (agents.getD i dummyAgent)).2.1,
          (cell_for (agents.getD j dummyAgent)).2.2
            - (cell_for (agents.getD i dummyAgent)).2.2) ∧
          (i < j ∧ j < agents.length ∧
            dist2A (agents.getD i dummyAgent) (agents.getD j dummyAgent)
              ≤ COMM_RANGE * COMM_RANGE) then 1 else 0 := by
    intro o ho
    rw [count_filterMap_decide]
    simp only [bucket]
    rw [List.countP_filter]
    refine Eq.trans (countP_range_single j _ ?uh agents.length) ?rest
    case uh =>
      intro x hx
      rw [Bool.and_eq_true, decide_eq_true_eq, decide_eq_true_eq] at hx
      obtain ⟨hx1, hx2⟩ := hx
      by_cases hxi : x ≤ i
      · rw [if_pos hxi] at hx1
        cases hx1
      · rw [if_neg hxi] at hx1
        by_cases hd : dist2A (agents.getD i dummyAgent) (agents.getD x dummyAgent)
            ≤ COMM_RANGE * COMM_RANGE
        · rw [if_pos hd] at hx1
          exact (Prod.ext_iff.mp (Option.some.inj hx1)).2
        · rw [if_neg hd] at hx1
          cases hx1
    case rest =>
      refine if_congr ?_ rfl rfl
      rw [Bool.and_eq_true, decide_eq_true_eq, decide_eq_true_eq]
      constructor
      · rintro ⟨hjn, hgj, hcell⟩
        by_cases hji : j ≤ i
        · rw [if_pos hji] at hgj
          cases hgj
        · rw [if_neg hji] at hgj
          by_cases hd : dist2A (agents.getD i dummyAgent) (agents.getD j dummyAgent)
              ≤ COMM_RANGE * COMM_RANGE
          · have hc1 := congrArg Prod.fst hcell
            have hc2 := congrArg (fun t : ℤ × ℤ × ℤ => t.2.1) hcell
            have hc3 := congrArg (fun t : ℤ × ℤ × ℤ => t.2.2) hcell
            dsimp only at hc1 hc2 hc3
            refine ⟨?_, Nat.lt_of_not_le hji, hjn, hd⟩
            refine Prod.ext ?_ (Prod.ext ?_ ?_) <;> dsimp only <;> omega
          · rw [if_neg hd] at hgj
            cases hgj
      · rintro ⟨ho', hij, hjn, hd⟩
        refine ⟨hjn, ?_, ?_⟩
        · rw [if_neg (by omega), if_pos hd]
        · subst ho'
          refine Prod.ext ?_ (Prod.ext ?_ ?_) <;> simp
  rw [List.map_congr_left hinner,
    sum_map_ite_unique _ _ neighborOffsets (by decide)]
  by_cases hC : i < j ∧ j < agents.length ∧
      dist2A (agents.getD i dummyAgent) (agents.getD j dummyAgent)
        ≤ COMM_RANGE * COMM_RANGE
  · have hadj : dist2A (agents.getD j dummyAgent) (agents.getD i dummyAgent)
        ≤ COMM_RANGE * COMM_RANGE := by
      rw [dist2A_comm]
      exact hC.2.2
    have hmem := (cells_adjacent hadj).2
    rw [if_pos ⟨hmem, hC⟩, if_pos hC]
  · rw [if_neg (by tauto), if_neg hC]

/-- C5: the grid-based encounter scan emits each unordered pair of distinct
agents within communication range exactly once, stored with the smaller
index first, and emits no other pair: the count of `(i, j)` in a step's
encounter list is 1 precisely when `i < j`, `j` is a valid index and the
squared distance is within `COMM_RANGE²`, and 0 otherwise. -/
theorem encounter_pairs_exactly_once :
    ∀ (agents : List Agent) (i j : ℕ),
      (encounters agents).count (i, j)
        = if i < j ∧ j < agents.length ∧
            dist2A (agents.getD i dummyAgent) (agents.getD j dummyAgent)
              ≤ COMM_RANGE * COMM_RANGE then 1 else 0 := by
  intro agents i j
  rw [encounters, count_flatMap]
  rw [sum_map_range_single i _ ?hz agents.length]
  case hz =>
    intro k hk
    rw [List.count_eq_zero]
    intro hmem
    exact hk ((encountersFor_sound hmem).1.symm ▸ rfl)
  by_cases hin : i < agents.length
  · rw [if_pos hin]
    exact encountersFor_count agents i j
  · rw [if_neg hin, if_neg (by omega)]

/-! ### C1: store consistency -/

theorem mobilityAgent_messages (f : ℚ → ℚ) (nodes : List GraphNode) (r : ℕ) (dt : ℚ)
    (a : Agent) : (mobilityAgent f nodes r dt a).messages = a.messages := by
  simp only [mobilityAgent]
  split_ifs <;> rfl

theorem mobilityAgent_id (f : ℚ → ℚ) (nodes : List GraphNode) (r : ℕ) (dt : ℚ)
    (a : Agent) : (mobilityAgent f nodes r dt a).id = a.id := by
  simp only [mobilityAgent]
  split_ifs <;> rfl

theorem mobilityAgent_has_initial (f : ℚ → ℚ) (nodes : List GraphNode) (r : ℕ) (dt : ℚ)
    (a : Agent) : (mobilityAgent f nodes r dt a).has_initial = a.has_initial := by
  simp only [mobilityAgent]
  split_ifs <;> rfl

theorem getD_mem_of_lt {α : Type} {l : List α} {i : ℕ} (h : i < l.length) (d : α) :
    l.getD i d ∈ l := by
  rw [List.getD_eq_getElem l d h]
  exact List.getElem_mem h

theorem getD_map_range {α : Type} {n i : ℕ} (f : ℕ → α) (d : α) (h : i < n) :
    ((List.range n).map f).getD i d = f i := by
  have hlen : i < ((List.range n).map f).length := by simpa using h
  rw [List.getD_eq_getElem _ d hlen]
  simp

theorem getD_map_eq {α β : Type} (f : α → β) (l : List α) (i : ℕ) (d : α) (e : β)
    (hfd : f d = e) : (l.map f).getD i e = f (l.getD i d) := by
  rw [List.getD_eq_getElem?_getD, List.getD_eq_getElem?_getD, List.getElem?_map]
  cases l[i]? with
  | none => simpa using hfd.symm
  | some x => rfl

/-- The store consistency invariant of the spec: every message held by any
agent has a matching (src,dst,seq) entry in the global store, and every
global-store entry is held by at least one agent. -/
def StoreConsistent (s : SimState) : Prop :=
  (∀ a ∈ s.agents, ∀ m ∈ a.messages, ∃ gm ∈ s.messages, msgEq gm m = true) ∧
  ∀ gm ∈ s.messages, ∃ a ∈ s.agents, hasMsg a.messages gm = true

/-- The half of the invariant the induction carries: every global message is
held by at least one agent. -/
def HeldInv (s : SimState) : Prop :=
  ∀ gm ∈ s.messages, ∃ a ∈ s.agents, hasMsg a.messages gm = true

theorem step_storeConsistent {s : SimState} (h : HeldInv s) (f : ℚ → ℚ) (r : ℕ → ℕ)
    (dt : ℚ) : StoreConsistent (dtnsim_step f r dt s) := by
  by_cases hn : s.agents.length = 0
  · rw [dtnsim_step, if_pos hn]
    refine ⟨?_, h⟩
    intro a ha
    rw [List.length_eq_zero.mp hn] at ha
    cases ha
  · simp only [dtnsim_step]
    rw [if_neg hn]
    constructor
    · intro a ha m hm
      rw [purgeAgents, List.mem_map] at ha
      obtain ⟨b, hb, hab⟩ := ha
      subst hab
      simp only [List.mem_filter] at hm
      obtain ⟨hmb, hma⟩ := hm
      rw [List.any_eq_true] at hma
      obtain ⟨gm, hgm, hmsg⟩ := hma
      exact ⟨gm, hgm, hmsg⟩
    · intro gm hgm
      have hgm0 : gm ∈ s.messages := by
        simp only [reconcileGlobal] at hgm
        exact (List.mem_filter.mp hgm).1
      obtain ⟨a0, ha0, hheld⟩ := h gm hgm0
      obtain ⟨i, hi, hai⟩ := List.mem_iff_getElem.mp ha0
      have hheld_i : hasMsg (s.agents.getD i dummyAgent).messages gm = true := by
        rw [List.getD_eq_getElem _ _ hi, hai]
        exact hheld
      have hmob : ((stepMobility f r dt s).getD i dummyAgent).messages
          = (s.agents.getD i dummyAgent).messages := by
        rw [stepMobility, getD_map_range _ dummyAgent hi]
        exact mobilityAgent_messages _ _ _ _ _
      have pres : StepPres ⟨stepMobility f r dt s, s.agent_delivered, s.stats, [], []⟩
          (stepRout f r dt s) :=
        stepPres_routingPass s.routing_mode s.messages
          (encounters (stepMobility f r dt s))
          ⟨stepMobility f r dt s, s.agent_delivered, s.stats, [], []⟩
      have hrout : hasMsg (((stepRout f r dt s).agents.getD i dummyAgent).messages)
          gm = true := by
        rw [hasMsg_iff] at hheld_i ⊢
        obtain ⟨x, hx, hxe⟩ := hheld_i
        refine ⟨x, pres.msgs i x ?_, hxe⟩
        show x ∈ ((stepMobility f r dt s).getD i dummyAgent).messages
        rw [hmob]
        exact hx
      have hleni : i < (stepRout f r dt s).agents.length := by
        have := pres.len
        simp only [stepMobility] at this
        simp [this, stepMobility]
        simpa using hi
      rw [hasMsg_iff] at hrout
      obtain ⟨x, hx, hxe⟩ := hrout
      refine ⟨(purgeAgents (reconcileGlobal (stepRout f r dt s).agents s.messages)
        (stepRout f r dt s).agents).getD i dummyAgent,
        getD_mem_of_lt ?_ dummyAgent, ?_⟩
      · rw [purgeAgents, List.length_map]
        exact hleni
      · rw [purgeAgents, getD_map_eq _ _ i dummyAgent dummyAgent rfl]
        rw [hasMsg_iff]
        refine ⟨x, ?_, hxe⟩
        rw [List.mem_filter]
        refine ⟨hx, ?_⟩
        rw [List.any_eq_true]
        exact ⟨gm, hgm, msgEq_symm hxe⟩

theorem init_heldInv (R : InitRand) (n : ℕ) (name : String) :
    HeldInv (dtnsim_init R n name) := by
  intro gm hgm
  simp only [dtnsim_init] at hgm ⊢
  by_cases h2 : 2 ≤ n
  · rw [if_pos h2] at hgm ⊢
    dsimp only at hgm ⊢
    have hn0 : 0 < n := by omega
    have hsrc : initSrc R n < n := Nat.mod_lt _ hn0
    have hsrc' : initSrc R n < (initAgents0 R n).length := by
      simpa [initAgents0] using hsrc
    rw [List.mem_singleton] at hgm
    subst hgm
    refine ⟨((initAgents0 R n).set (initSrc R n) (initCarrier R n)).getD (initSrc R n)
      dummyAgent, getD_mem_of_lt ?_ dummyAgent, ?_⟩
    · rw [List.length_set]
      exact hsrc'
    · rw [getD_set_self hsrc']
      rw [hasMsg_iff]
      exact ⟨_, List.mem_append_right _ (List.mem_singleton_self _), msgEq_refl _⟩
  · rw [if_neg h2] at hgm
    dsimp only at hgm
    cases hgm

theorem reachable_heldInv {s : SimState} (h : ReachableState s) : HeldInv s := by
  induction h with
  | init R n name => exact init_heldInv R n name
  | step f r dt s hs ih => exact (step_storeConsistent ih f r dt).2

/-- C1: after every `dtnsim_step` call on a reachable state — any routing
policy, agent count, `dt`, random draws and square-root routine — the store
consistency invariant holds: every message held by any agent has a matching
(src,dst,seq) entry in the global store and every global-store entry is
held by at least one agent. -/
theorem store_consistency_after_step (s : SimState) (h : ReachableState s)
    (sqrtFn : ℚ → ℚ) (rnd : ℕ → ℕ) (dt : ℚ) :
    StoreConsistent (dtnsim_step sqrtFn rnd dt s) :=
  step_storeConsistent (reachable_heldInv h) sqrtFn rnd dt

theorem store_consistency_after_step_witness :
    StoreConsistent (dtnsim_step (fun _ => 40) (fun _ => 0) 0
      (dtnsim_init c2R 2 "carryonly")) :=
  store_consistency_after_step (dtnsim_init c2R 2 "carryonly")
    (ReachableState.init c2R 2 "carryonly") (fun _ => 40) (fun _ => 0) 0

/-! ### C4: the delivered counter -/

/-- Number of set flags. -/
def countTrue (l : List Bool) : ℕ := (l.filter id).length

theorem countTrue_nil : countTrue [] = 0 := rfl

theorem countTrue_cons (b : Bool) (t : List Bool) :
    countTrue (b :: t) = (if b then 1 else 0) + countTrue t := by
  cases b <;> simp [countTrue, List.filter_cons, Nat.add_comm]

theorem countTrue_le_length (l : List Bool) : countTrue l ≤ l.length :=
  List.length_filter_le _ _

theorem countTrue_replicate_false (n : ℕ) : countTrue (List.replicate n false) = 0 := by
  induction n with
  | zero => rfl
  | succ n ih =>
    rw [List.replicate_succ, countTrue_cons, ih]
    simp

theorem countTrue_set_true : ∀ (l : List Bool) (i : ℕ), i < l.length →
    l.getD i false = false → countTrue (l.set i true) = countTrue l + 1 := by
  intro l
  induction l with
  | nil => intro i hi; simp at hi
  | cons b t ih =>
    intro i hi hb
    cases i with
    | zero =>
      rw [List.getD_cons_zero] at hb
      subst hb
      rw [List.set_cons_zero, countTrue_cons, countTrue_cons]
      simp [Nat.add_comm]
    | succ k =>
      rw [List.getD_cons_succ] at hb
      rw [List.set_cons_succ, countTrue_cons, countTrue_cons,
        ih k (by simpa using hi) hb]
      omega

theorem countTrue_mono_delta : ∀ (l l' : List Bool), l.length = l'.length →
    (∀ i, l.getD i false = true → l'.getD i false = true) →
    countTrue l' = countTrue l +
      ((List.range l.length).filter fun i => !(l.getD i false) && l'.getD i false).length := by
  intro l
  induction l with
  | nil =>
    intro l' hlen hmono
    rw [(List.length_eq_zero).mp hlen.symm]
    rfl
  | cons b t ih =>
    intro l' hlen hmono
    cases l' with
    | nil => simp at hlen
    | cons b' t' =>
      have hlen' : t.length = t'.length := by simpa using hlen
      have hmono' : ∀ i, t.getD i false = true → t'.getD i false = true := by
        intro i hti
        have := hmono (i + 1) (by rwa [List.getD_cons_succ])
        rwa [List.getD_cons_succ] at this
      rw [countTrue_cons, countTrue_cons, ih t' hlen' hmono']
      rw [List.length_cons, List.range_succ_eq_map, List.filter_cons]
      simp only [List.getD_cons_zero]
      rw [List.filter_map]
      have hc : ∀ k : ℕ,
          ((fun i => !(b :: t).getD i false && (b' :: t').getD i false) ∘ Nat.succ) k
            = (fun i => !t.getD i false && t'.getD i false) k := by
        intro k
        simp [Function.comp, List.getD_cons_succ]
      rw [List.filter_congr fun k _ => hc k]
      cases b with
      | true =>
        have hb' : b' = true := hmono 0 (by rw [List.getD_cons_zero])
        subst hb'
        simp [List.length_map]
        omega
      | false =>
        cases b' with
        | true => simp [List.length_map]; omega
        | false => simp [List.length_map]

/-- Invariant tying the delivered counter to the flags and the flags to the
agents' `has_initial` fields, inside the routing pass. -/
def RoutInv (st : RoutState) : Prop :=
  st.flags.length = st.agents.length ∧
  (∀ i, st.flags.getD i false = (st.agents.getD i dummyAgent).has_initial) ∧
  st.stats.delivered = countTrue st.flags

theorem routInv_mark (i : ℕ) {st : RoutState} (h : RoutInv st) :
    RoutInv (mark_initial_received i st) := by
  obtain ⟨hlen, hcorr, hcount⟩ := h
  simp only [mark_initial_received]
  split_ifs with h1 h2
  · exact ⟨hlen, hcorr, hcount⟩
  · have hif : i < st.flags.length := by rwa [hlen]
    refine ⟨by simpa using hlen, ?_, ?_⟩
    · intro j
      rcases eq_or_ne i j with rfl | hne
      · rw [getD_set_self hif, getD_set_self h1]
      · rw [getD_set_ne hne, getD_set_ne hne]
        exact hcorr j
    · show st.stats.delivered + 1 = countTrue (st.flags.set i true)
      rw [countTrue_set_true st.flags i hif ?_, hcount]
      rw [hcorr i]
      simpa using h2
  · exact ⟨hlen, hcorr, hcount⟩

theorem routInv_carryOffer (o r : ℕ) (m : Message) {st : RoutState} (h : RoutInv st) :
    RoutInv (carryOffer o r m st) := by
  obtain ⟨hlen, hcorr, hcount⟩ := h
  simp only [carryOffer]
  split_ifs with h1 h2 h3
  · exact ⟨hlen, hcorr, hcount⟩
  · exact ⟨hlen, hcorr, hcount⟩
  · exact routInv_mark r ⟨hlen, hcorr, hcount⟩
  · exact ⟨hlen, hcorr, hcount⟩

theorem routInv_epidemicOffer (gms : List Message) (o r : ℕ) (m : Message)
    {st : RoutState} (h : RoutInv st) : RoutInv (epidemicOffer gms o r m st) := by
  obtain ⟨hlen, hcorr, hcount⟩ := h
  simp only [epidemicOffer]
  split
  · exact ⟨hlen, hcorr, hcount⟩
  · split_ifs with h1 h2 h3
    · exact ⟨hlen, hcorr, hcount⟩
    · exact ⟨hlen, hcorr, hcount⟩
    · refine routInv_mark r ⟨by simpa using hlen, ?_, hcount⟩
      intro j
      rcases getD_set_cases st.agents r j
          { st.agents.getD r dummyAgent with
            messages := (st.agents.getD r dummyAgent).messages ++ [m] } dummyAgent with
        ⟨rfl, hset⟩ | hset
      · rw [hset]
        exact hcorr r
      · rw [hset]
        exact hcorr j
    · refine ⟨by simpa using hlen, ?_, hcount⟩
      intro j
      rcases getD_set_cases st.agents r j
          { st.agents.getD r dummyAgent with
            messages := (st.agents.getD r dummyAgent).messages ++ [m] } dummyAgent with
        ⟨rfl, hset⟩ | hset
      · rw [hset]
        exact hcorr r
      · rw [hset]
        exact hcorr j

theorem routInv_carryList (o r : ℕ) (ms : List Message) {st : RoutState}
    (h : RoutInv st) : RoutInv (carryList o r ms st) := by
  induction ms generalizing st with
  | nil => exact h
  | cons m rest ih => exact ih (routInv_carryOffer o r m h)

theorem routInv_offerList (gms : List Message) (o r : ℕ) (ms : List Message)
    {st : RoutState} (h : RoutInv st) : RoutInv (offerList gms o r ms st) := by
  induction ms generalizing st with
  | nil => exact h
  | cons m rest ih => exact ih (routInv_epidemicOffer gms o r m h)

theorem routInv_processEncounter (mode : ℕ) (gms : List Message) (e : ℕ × ℕ)
    {st : RoutState} (h : RoutInv st) : RoutInv (processEncounter mode gms e st) := by
  simp only [processEncounter]
  split_ifs with hm
  · exact routInv_carryList e.2 e.1 _ (routInv_carryList e.1 e.2 _ h)
  · exact routInv_offerList gms e.2 e.1 _ (routInv_offerList gms e.1 e.2 _ h)

theorem routInv_routingPass (mode : ℕ) (gms : List Message) (encs : List (ℕ × ℕ))
    {st : RoutState} (h : RoutInv st) : RoutInv (routingPass mode gms encs st) := by
  induction encs generalizing st with
  | nil => exact h
  | cons e rest ih => exact ih (routInv_processEncounter mode gms e h)

theorem getD_of_ge {α : Type} {l : List α} {i : ℕ} (h : l.length ≤ i) (d : α) :
    l.getD i d = d := by
  rw [List.getD_eq_getElem?_getD, List.getElem?_eq_none h]
  rfl

theorem getD_replicate_false (n i : ℕ) : (List.replicate n false).getD i false = false := by
  rcases lt_or_ge i n with h | h
  · rw [List.getD_eq_getElem _ _ (by simpa using h)]
    simp
  · rw [getD_of_ge (by simpa using h)]

/-- Invariant tying the delivered counter to the per-agent delivered flags
and the flags to the agents' `has_initial` fields. -/
def DeliveredInv (s : SimState) : Prop :=
  s.agent_delivered.length = s.agents.length ∧
  (∀ i, s.agent_delivered.getD i false = (s.agents.getD i dummyAgent).has_initial) ∧
  s.stats.delivered = countTrue s.agent_delivered

theorem init_deliveredInv (R : InitRand) (n : ℕ) (name : String) :
    DeliveredInv (dtnsim_init R n name) := by
  simp only [dtnsim_init]
  by_cases h2 : 2 ≤ n
  · rw [if_pos h2]
    have hn0 : 0 < n := by omega
    have hsrc : initSrc R n < n := Nat.mod_lt _ hn0
    have hsrcA : initSrc R n < (initAgents0 R n).length := by
      simpa [initAgents0] using hsrc
    have hsrcF : initSrc R n < (List.replicate n false).length := by simpa using hsrc
    refine ⟨by simp [initAgents0], ?_, ?_⟩
    · intro i
      rcases eq_or_ne (initSrc R n) i with rfl | hne
      · rw [getD_set_self hsrcF, getD_set_self hsrcA]
        rfl
      · rw [getD_set_ne hne, getD_set_ne hne, getD_replicate_false]
        rcases lt_or_ge i n with hi | hi
        · rw [initAgents0, getD_map_range _ dummyAgent hi]
          rfl
        · rw [getD_of_ge (by simpa [initAgents0] using hi)]
          rfl
    · show (1 : ℕ) = countTrue ((List.replicate n false).set (initSrc R n) true)
      rw [countTrue_set_true _ _ hsrcF (getD_replicate_false n _),
        countTrue_replicate_false]
  · rw [if_neg h2]
    refine ⟨by simp [initAgents0], ?_, ?_⟩
    · intro i
      rw [getD_replicate_false]
      rcases lt_or_ge i n with hi | hi
      · rw [initAgents0, getD_map_range _ dummyAgent hi]
        rfl
      · rw [getD_of_ge (by simpa [initAgents0] using hi)]
        rfl
    · show (0 : ℕ) = countTrue (List.replicate n false)
      rw [countTrue_replicate_false]

theorem step_deliveredInv {s : SimState} (h : DeliveredInv s) (f : ℚ → ℚ) (r : ℕ → ℕ)
    (dt : ℚ) : DeliveredInv (dtnsim_step f r dt s) := by
  by_cases hn : s.agents.length = 0
  · rw [dtnsim_step, if_pos hn]
    exact h
  · simp only [dtnsim_step]
    rw [if_neg hn]
    obtain ⟨hlen, hcorr, hcount⟩ := h
    have hmoblen : (stepMobility f r dt s).length = s.agents.length := by
      simp [stepMobility]
    have hmobcorr : ∀ i, ((stepMobility f r dt s).getD i dummyAgent).has_initial
        = (s.agents.getD i dummyAgent).has_initial := by
      intro i
      rcases lt_or_ge i s.agents.length with hi | hi
      · rw [stepMobility, getD_map_range _ dummyAgent hi]
        exact mobilityAgent_has_initial _ _ _ _ _
      · rw [getD_of_ge (by omega), getD_of_ge hi]
    have h0 : RoutInv ⟨stepMobility f r dt s, s.agent_delivered, s.stats, [], []⟩ := by
      refine ⟨?_, ?_, hcount⟩
      · show s.agent_delivered.length = (stepMobility f r dt s).length
        rw [hmoblen]
        exact hlen
      · intro i
        show s.agent_delivered.getD i false
          = ((stepMobility f r dt s).getD i dummyAgent).has_initial
        rw [hmobcorr i]
        exact hcorr i
    have hR : RoutInv (stepRout f r dt s) :=
      routInv_routingPass s.routing_mode s.messages
        (encounters (stepMobility f r dt s)) h0
    obtain ⟨hRlen, hRcorr, hRcount⟩ := hR
    refine ⟨?_, ?_, hRcount⟩
    · show (stepRout f r dt s).flags.length = (purgeAgents _ _).length
      rw [purgeAgents, List.length_map]
      exact hRlen
    · intro i
      show (stepRout f r dt s).flags.getD i false
        = ((purgeAgents _ (stepRout f r dt s).agents).getD i dummyAgent).has_initial
      rw [purgeAgents, getD_map_eq _ _ i dummyAgent dummyAgent rfl]
      exact hRcorr i

theorem step_flags (f : ℚ → ℚ) (r : ℕ → ℕ) (dt : ℚ) (s : SimState) :
    (dtnsim_step f r dt s).agent_delivered.length = s.agent_delivered.length ∧
    ∀ i, s.agent_delivered.getD i false = true →
      (dtnsim_step f r dt s).agent_delivered.getD i false = true := by
  by_cases hn : s.agents.length = 0
  · rw [dtnsim_step, if_pos hn]
    exact ⟨rfl, fun _ hh => hh⟩
  · simp only [dtnsim_step]
    rw [if_neg hn]
    have pres : StepPres ⟨stepMobility f r dt s, s.agent_delivered, s.stats, [], []⟩
        (stepRout f r dt s) :=
      stepPres_routingPass s.routing_mode s.messages
        (encounters (stepMobility f r dt s))
        ⟨stepMobility f r dt s, s.agent_delivered, s.stats, [], []⟩
    exact ⟨pres.flagLen, pres.flagMono⟩

theorem step_agents_length (f : ℚ → ℚ) (r : ℕ → ℕ) (dt : ℚ) (s : SimState) :
    (dtnsim_step f r dt s).agents.length = s.agents.length := by
  by_cases hn : s.agents.length = 0
  · rw [dtnsim_step, if_pos hn]
  · simp only [dtnsim_step]
    rw [if_neg hn]
    show (purgeAgents _ _).length = s.agents.length
    rw [purgeAgents, List.length_map]
    have pres : StepPres ⟨stepMobility f r dt s, s.agent_delivered, s.stats, [], []⟩
        (stepRout f r dt s) :=
      stepPres_routingPass s.routing_mode s.messages
        (encounters (stepMobility f r dt s))
        ⟨stepMobility f r dt s, s.agent_delivered, s.stats, [], []⟩
    have hl := pres.len
    simp only [stepMobility, List.length_map, List.length_range] at hl
    exact hl

theorem reachable_deliveredInv {s : SimState} (h : ReachableState s) : DeliveredInv s := by
  induction h with
  | init R n name => exact init_deliveredInv R n name
  | step f r dt s hs ih => exact step_deliveredInv ih f r dt

/-- C4: for any initialization with `agent_count ≥ 2`, `stats.delivered` is
exactly 1 right after `dtnsim_init`; on every reachable state it equals the
number of agents whose per-agent flag (= `has_initial`) is set, is bounded
by the agent count, and across any `dtnsim_step` it is monotone and grows
by exactly one per agent that newly transitions from never-held to held. -/
theorem delivered_starts_one_monotone_bounded (R : InitRand) (n : ℕ) (name : String)
    (s : SimState) (h : ReachableState s) (f : ℚ → ℚ) (r : ℕ → ℕ) (dt : ℚ) :
    (2 ≤ n → (dtnsim_init R n name).stats.delivered = 1) ∧
    s.stats.delivered = countTrue s.agent_delivered ∧
    (∀ i, s.agent_delivered.getD i false = (s.agents.getD i dummyAgent).has_initial) ∧
    s.stats.delivered ≤ s.agents.length ∧
    (dtnsim_step f r dt s).agents.length = s.agents.length ∧
    s.stats.delivered ≤ (dtnsim_step f r dt s).stats.delivered ∧
    (dtnsim_step f r dt s).stats.delivered = s.stats.delivered +
      ((List.range s.agent_delivered.length).filter fun i =>
        !(s.agent_delivered.getD i false)
          && (dtnsim_step f r dt s).agent_delivered.getD i false).length := by
  obtain ⟨hlen, hcorr, hcount⟩ := reachable_deliveredInv h
  obtain ⟨hlen', hcorr', hcount'⟩ := step_deliveredInv (reachable_deliveredInv h) f r dt
  obtain ⟨hflen, hfmono⟩ := step_flags f r dt s
  have hdelta := countTrue_mono_delta s.agent_delivered
    (dtnsim_step f r dt s).agent_delivered hflen.symm hfmono
  refine ⟨?_, hcount, hcorr, ?_, step_agents_length f r dt s, ?_, ?_⟩
  · intro h2
    simp only [dtnsim_init]
    rw [if_pos h2]
  · rw [hcount, ← hlen]
    exact countTrue_le_length _
  · rw [hcount, hcount', hdelta]
    exact Nat.le_add_right _ _
  · rw [hcount, hcount', hdelta]

theorem delivered_starts_one_monotone_bounded_witness :
    (dtnsim_init c2R 2 "carryonly").stats.delivered
      = countTrue (dtnsim_init c2R 2 "carryonly").agent_delivered :=
  (delivered_starts_one_monotone_bounded c2R 2 "carryonly"
    (dtnsim_init c2R 2 "carryonly") (ReachableState.init c2R 2 "carryonly")
    (fun _ => 40) (fun _ => 0) 0).2.1

/-! ### C6: mobility — progress bounds and exact interpolation -/

/-- Linear interpolation `p + (q - p) * t`, the position formula of the
mobility update. -/
def lerpQ (p q t : ℚ) : ℚ := p + (q - p) * t

/-- The mobility invariant: every agent's progress lies in [0,1] and its
position is the exact linear interpolation of its current edge's endpoint
nodes at that progress. -/
def MobInv (s : SimState) : Prop :=
  ∀ i, i < s.agents.length →
    0 ≤ (s.agents.getD i dummyAgent).progress ∧
    (s.agents.getD i dummyAgent).progress ≤ 1 ∧
    (s.agents.getD i dummyAgent).x
      = lerpQ (s.nodes.getD (s.agents.getD i dummyAgent).current_node dummyNode).x
          (s.nodes.getD (s.agents.getD i dummyAgent).target_node dummyNode).x
          (s.agents.getD i dummyAgent).progress ∧
    (s.agents.getD i dummyAgent).y
      = lerpQ (s.nodes.getD (s.agents.getD i dummyAgent).current_node dummyNode).y
          (s.nodes.getD (s.agents.getD i dummyAgent).target_node dummyNode).y
          (s.agents.getD i dummyAgent).progress ∧
    (s.agents.getD i dummyAgent).z
      = lerpQ (s.nodes.getD (s.agents.getD i dummyAgent).current_node dummyNode).z
          (s.nodes.getD (s.agents.getD i dummyAgent).target_node dummyNode).z
          (s.agents.getD i dummyAgent).progress

theorem progressAfter_bounds (len p dt : ℚ) (hdt : 0 ≤ dt) (h0 : 0 ≤ p) :
    0 ≤ progressAfter len p dt ∧ progressAfter len p dt ≤ 1 := by
  unfold progressAfter
  split_ifs with hsnap hclamp
  · norm_num
  · norm_num
  · have hlen : (1 : ℚ) / 1000 ≤ len := le_of_not_lt hsnap
    have hd : 0 ≤ AGENT_SPEED * dt / len :=
      div_nonneg (mul_nonneg (by norm_num [AGENT_SPEED]) hdt) (by linarith)
    constructor
    · linarith
    · linarith [le_of_not_lt hclamp]

theorem mobilityAgent_inv (f : ℚ → ℚ) (nodes : List GraphNode) (r : ℕ) {dt : ℚ}
    (hdt : 0 ≤ dt) (a : Agent) (h0 : 0 ≤ a.progress) (h1 : a.progress ≤ 1)
    (hx : a.x = lerpQ (nodes.getD a.current_node dummyNode).x
      (nodes.getD a.target_node dummyNode).x a.progress)
    (hy : a.y = lerpQ (nodes.getD a.current_node dummyNode).y
      (nodes.getD a.target_node dummyNode).y a.progress)
    (hz : a.z = lerpQ (nodes.getD a.current_node dummyNode).z
      (nodes.getD a.target_node dummyNode).z a.progress) :
    0 ≤ (mobilityAgent f nodes r dt a).progress ∧
    (mobilityAgent f nodes r dt a).progress ≤ 1 ∧
    (mobilityAgent f nodes r dt a).x
      = lerpQ (nodes.getD (mobilityAgent f nodes r dt a).current_node dummyNode).x
          (nodes.getD (mobilityAgent f nodes r dt a).target_node dummyNode).x
          (mobilityAgent f nodes r dt a).progress ∧
    (mobilityAgent f nodes r dt a).y
      = lerpQ (nodes.getD (mobilityAgent f nodes r dt a).current_node dummyNode).y
          (nodes.getD (mobilityAgent f nodes r dt a).target_node dummyNode).y
          (mobilityAgent f nodes r dt a).progress ∧
    (mobilityAgent f nodes r dt a).z
      = lerpQ (nodes.getD (mobilityAgent f nodes r dt a).current_node dummyNode).z
          (nodes.getD (mobilityAgent f nodes r dt a).target_node dummyNode).z
          (mobilityAgent f nodes r dt a).progress := by
  obtain ⟨hb0, hb1⟩ := progressAfter_bounds (f (edgeD2 nodes a)) a.progress dt hdt h0
  simp only [mobilityAgent]
  by_cases hn : nodes.length = 0
  · rw [if_pos hn]
    exact ⟨h0, h1, hx, hy, hz⟩
  · rw [if_neg hn]
    by_cases harr : (1 : ℚ) ≤ progressAfter (f (edgeD2 nodes a)) a.progress dt
    · rw [if_pos harr]
      have hp1 : progressAfter (f (edgeD2 nodes a)) a.progress dt = 1 :=
        le_antisymm hb1 harr
      by_cases hnb : (nodes.getD a.target_node dummyNode).neighbors ≠ []
      · rw [if_pos hnb]
        refine ⟨le_refl 0, by norm_num, ?_, ?_, ?_⟩ <;>
          · dsimp only
            rw [hp1, lerpQ]
            ring
      · rw [if_neg hnb]
        refine ⟨hb0, hb1, ?_, ?_, ?_⟩ <;>
          · dsimp only
            rw [hp1, lerpQ]
            ring
    · rw [if_neg harr]
      refine ⟨hb0, hb1, ?_, ?_, ?_⟩ <;>
        · dsimp only
          rw [lerpQ]

theorem initAgent_mobInv (R : InitRand) (n i : ℕ) :
    0 ≤ (initAgent R n i).progress ∧ (initAgent R n i).progress ≤ 1 ∧
    (initAgent R n i).x
      = lerpQ ((initNodes R n).getD (initAgent R n i).current_node dummyNode).x
          ((initNodes R n).getD (initAgent R n i).target_node dummyNode).x
          (initAgent R n i).progress ∧
    (initAgent R n i).y
      = lerpQ ((initNodes R n).getD (initAgent R n i).current_node dummyNode).y
          ((initNodes R n).getD (initAgent R n i).target_node dummyNode).y
          (initAgent R n i).progress ∧
    (initAgent R n i).z
      = lerpQ ((initNodes R n).getD (initAgent R n i).current_node dummyNode).z
          ((initNodes R n).getD (initAgent R n i).target_node dummyNode).z
          (initAgent R n i).progress := by
  refine ⟨?_, ?_, ?_, ?_, ?_⟩ <;> simp [initAgent, lerpQ]

theorem init_mobInv (R : InitRand) (n : ℕ) (name : String) :
    MobInv (dtnsim_init R n name) := by
  intro i hi
  simp only [dtnsim_init] at hi ⊢
  by_cases h2 : 2 ≤ n
  · rw [if_pos h2] at hi ⊢
    dsimp only at hi ⊢
    have hsrc : initSrc R n < n := Nat.mod_lt _ (by omega)
    have hA : (initAgents0 R n).getD (initSrc R n) dummyAgent
        = initAgent R n (initSrc R n) := by
      rw [initAgents0]
      exact getD_map_range _ dummyAgent hsrc
    rcases getD_set_cases (initAgents0 R n) (initSrc R n) i (initCarrier R n)
        dummyAgent with ⟨rfl, hset⟩ | hset
    · rw [hset]
      show 0 ≤ (initCarrier R n).progress ∧ (initCarrier R n).progress ≤ 1 ∧ _ ∧ _ ∧ _
      simp only [initCarrier, hA]
      exact initAgent_mobInv R n (initSrc R n)
    · rw [hset]
      have hin : i < n := by
        rw [List.length_set] at hi
        simpa [initAgents0] using hi
      rw [initAgents0, getD_map_range _ dummyAgent hin]
      exact initAgent_mobInv R n i
  · rw [if_neg h2] at hi ⊢
    dsimp only at hi ⊢
    have hin : i < n := by simpa [initAgents0] using hi
    rw [initAgents0, getD_map_range _ dummyAgent hin]
    exact initAgent_mobInv R n i

theorem agentFrame_fields {a b : Agent} (h : agentFrame a = agentFrame b) :
    a.current_node = b.current_node ∧ a.target_node = b.target_node ∧
    a.progress = b.progress ∧ a.x = b.x ∧ a.y = b.y ∧ a.z = b.z := by
  simp only [agentFrame, Prod.ext_iff] at h
  exact ⟨h.2.1, h.2.2.1, h.2.2.2.1, h.2.2.2.2.1, h.2.2.2.2.2.1, h.2.2.2.2.2.2⟩

theorem step_mobInv {s : SimState} (hinv : MobInv s) (f : ℚ → ℚ) (r : ℕ → ℕ)
    {dt : ℚ} (hdt : 0 ≤ dt) : MobInv (dtnsim_step f r dt s) := by
  by_cases hn : s.agents.length = 0
  · rw [dtnsim_step, if_pos hn]
    exact hinv
  · simp only [dtnsim_step]
    rw [if_neg hn]
    intro i hi
    have pres : StepPres ⟨stepMobility f r dt s, s.agent_delivered, s.stats, [], []⟩
        (stepRout f r dt s) :=
      stepPres_routingPass s.routing_mode s.messages
        (encounters (stepMobility f r dt s))
        ⟨stepMobility f r dt s, s.agent_delivered, s.stats, [], []⟩
    have hin : i < s.agents.length := by
      dsimp only at hi
      rw [purgeAgents, List.length_map, pres.len] at hi
      simpa [stepMobility] using hi
    obtain ⟨hcur, htgt, hprog, hxx, hyy, hzz⟩ := agentFrame_fields (pres.frame i)
    dsimp only at hcur htgt hprog hxx hyy hzz
    have hmob : (stepMobility f r dt s).getD i dummyAgent
        = mobilityAgent f s.nodes (r i) dt (s.agents.getD i dummyAgent) := by
      rw [stepMobility]
      exact getD_map_range _ dummyAgent hin
    rw [hmob] at hcur htgt hprog hxx hyy hzz
    obtain ⟨hh0, hh1, hhx, hhy, hhz⟩ := hinv i hin
    have hagent := mobilityAgent_inv f s.nodes (r i) hdt (s.agents.getD i dummyAgent)
      hh0 hh1 hhx hhy hhz
    dsimp only
    rw [purgeAgents, getD_map_eq _ _ i dummyAgent dummyAgent rfl]
    show 0 ≤ ((stepRout f r dt s).agents.getD i dummyAgent).progress ∧
      ((stepRout f r dt s).agents.getD i dummyAgent).progress ≤ 1 ∧ _ ∧ _ ∧ _
    rw [hcur, htgt, hprog, hxx, hyy, hzz]
    exact hagent

/-- C6: on every state reachable with nonnegative `dt` arguments, each
agent's edge progress stays within [0,1] — the update advances it by
`(AGENT_SPEED·dt)/edge_length` clamped above at 1 and snaps it to 1 on
sub-threshold edges (`progressAfter`) — and the agent's reported (x,y,z)
position is the exact linear interpolation between its current-node and
target-node positions at its current progress. -/
theorem mobility_progress_bounds_and_interpolation (s : SimState)
    (h : ReachableNN s) : MobInv s := by
  induction h with
  | init R n name => exact init_mobInv R n name
  | step f r dt s hdt hs ih => exact step_mobInv ih f r hdt

theorem mobility_progress_bounds_and_interpolation_witness :
    MobInv (dtnsim_init c2R 2 "carryonly") :=
  mobility_progress_bounds_and_interpolation (dtnsim_init c2R 2 "carryonly")
    (ReachableNN.init c2R 2 "carryonly")

/-! ### C7: the kNN adjacency -/

theorem getD_replicate {α : Type} (x : α) (n a : ℕ) :
    (List.replicate n x).getD a x = x := by
  rcases lt_or_ge a n with h | h
  · rw [List.getD_eq_getElem _ _ (by simpa using h)]
    simp
  · rw [getD_of_ge (by simpa using h)]

theorem setEdge_length (adj : List (List ℕ)) (i j : ℕ) :
    (if j ∈ adj.getD i [] then adj else adj.set i (adj.getD i [] ++ [j])).length
      = adj.length := by
  split_ifs <;> simp

theorem addEdge_length (i j : ℕ) (adj : List (List ℕ)) :
    (addEdge i j adj).length = adj.length := by
  simp only [addEdge]
  split_ifs <;> simp

theorem mem_setEdge {adj : List (List ℕ)} {i : ℕ} (j : ℕ) (hi : i < adj.length)
    (a b : ℕ) :
    b ∈ (if j ∈ adj.getD i [] then adj else adj.set i (adj.getD i [] ++ [j])).getD a []
      ↔ b ∈ adj.getD a [] ∨ (a = i ∧ b = j) := by
  split_ifs with hmem
  · constructor
    · exact Or.inl
    · rintro (h | ⟨rfl, rfl⟩)
      · exact h
      · exact hmem
  · rcases eq_or_ne i a with rfl | hne
    · rw [getD_set_self hi, List.mem_append, List.mem_singleton]
      constructor
      · rintro (h | rfl)
        · exact Or.inl h
        · exact Or.inr ⟨rfl, rfl⟩
      · rintro (h | ⟨-, rfl⟩)
        · exact Or.inl h
        · exact Or.inr rfl
    · rw [getD_set_ne hne]
      constructor
      · exact Or.inl
      · rintro (h | ⟨rfl, rfl⟩)
        · exact h
        · exact absurd rfl hne

theorem nodup_setEdge {adj : List (List ℕ)} {i : ℕ} (j : ℕ)
    (h : ∀ a, (adj.getD a []).Nodup) (a : ℕ) :
    ((if j ∈ adj.getD i [] then adj else adj.set i (adj.getD i [] ++ [j])).getD a
      []).Nodup := by
  split_ifs with hmem
  · exact h a
  · rcases getD_set_cases adj i a (adj.getD i [] ++ [j]) [] with ⟨rfl, hset⟩ | hset
    · rw [hset]
      rw [List.nodup_append]
      exact ⟨h i, List.nodup_singleton j, List.disjoint_singleton.mpr hmem⟩
    · rw [hset]
      exact h a

theorem mem_addEdge {adj : List (List ℕ)} {i j : ℕ} (hi : i < adj.length)
    (hj : j < adj.length) (a b : ℕ) :
    b ∈ (addEdge i j adj).getD a [] ↔
      b ∈ adj.getD a [] ∨ (a = i ∧ b = j) ∨ (a = j ∧ b = i) := by
  simp only [addEdge]
  rw [mem_setEdge i (by rw [setEdge_length]; exact hj), mem_setEdge j hi]
  tauto

theorem nodup_addEdge {adj : List (List ℕ)} {i j : ℕ}
    (h : ∀ a, (adj.getD a []).Nodup) (a : ℕ) :
    ((addEdge i j adj).getD a []).Nodup := by
  simp only [addEdge]
  exact nodup_setEdge i (nodup_setEdge j h) a

/-- The adjacency invariant of the graph builder: right length, entries in
range and distinct from their node, duplicate-free lists, and a symmetric
relation. -/
def AdjInv (n : ℕ) (adj : List (List ℕ)) : Prop :=
  adj.length = n ∧
  (∀ i j, j ∈ adj.getD i [] → j < n ∧ j ≠ i) ∧
  (∀ i, (adj.getD i []).Nodup) ∧
  ∀ i j, j ∈ adj.getD i [] ↔ i ∈ adj.getD j []

theorem addEdge_AdjInv {n : ℕ} {adj : List (List ℕ)} {i j : ℕ} (h : AdjInv n adj)
    (hi : i < n) (hj : j < n) (hij : i ≠ j) : AdjInv n (addEdge i j adj) := by
  obtain ⟨hlen, hbound, hnodup, hsym⟩ := h
  have hi' : i < adj.length := by rwa [hlen]
  have hj' : j < adj.length := by rwa [hlen]
  refine ⟨by rw [addEdge_length]; exact hlen, ?_, nodup_addEdge hnodup, ?_⟩
  · intro a b hb
    rw [mem_addEdge hi' hj'] at hb
    rcases hb with hb | ⟨rfl, rfl⟩ | ⟨rfl, rfl⟩
    · exact hbound a b hb
    · exact ⟨hj, Ne.symm hij⟩
    · exact ⟨hi, hij⟩
  · intro a b
    rw [mem_addEdge hi' hj', mem_addEdge hi' hj', hsym a b]
    tauto

theorem foldl_addEdge_length (i : ℕ) :
    ∀ (ps : List (ℚ × ℕ)) (adj : List (List ℕ)),
      (ps.foldl (fun acc p => addEdge i p.2 acc) adj).length = adj.length := by
  intro ps
  induction ps with
  | nil => intro adj; rfl
  | cons p rest ih =>
    intro adj
    rw [List.foldl_cons, ih, addEdge_length]

theorem foldl_addEdge_AdjInv {n i : ℕ} (hi : i < n) :
    ∀ (ps : List (ℚ × ℕ)) (adj : List (List ℕ)), AdjInv n adj →
      (∀ p ∈ ps, p.2 < n ∧ p.2 ≠ i) →
      AdjInv n (ps.foldl (fun acc p => addEdge i p.2 acc) adj) := by
  intro ps
  induction ps with
  | nil => intro adj h _; exact h
  | cons p rest ih =>
    intro adj h hps
    rw [List.foldl_cons]
    refine ih _ (addEdge_AdjInv h hi (hps p (List.mem_cons_self p rest)).1
      (Ne.symm (hps p (List.mem_cons_self p rest)).2)) ?_
    intro q hq
    exact hps q (List.mem_cons_of_mem p hq)

theorem foldl_addEdge_mono {n i : ℕ} :
    ∀ (ps : List (ℚ × ℕ)) (adj : List (List ℕ)), adj.length = n → i < n →
      (∀ p ∈ ps, p.2 < n) → ∀ a b, b ∈ adj.getD a [] →
      b ∈ (ps.foldl (fun acc p => addEdge i p.2 acc) adj).getD a [] := by
  intro ps
  induction ps with
  | nil => intro adj _ _ _ a b hb; exact hb
  | cons p rest ih =>
    intro adj hlen hi hps a b hb
    rw [List.foldl_cons]
    refine ih _ (by rw [addEdge_length]; exact hlen) hi
      (fun q hq => hps q (List.mem_cons_of_mem p hq)) a b ?_
    rw [mem_addEdge (by rw [hlen]; exact hi)
      (by rw [hlen]; exact hps p (List.mem_cons_self p rest))]
    exact Or.inl hb

/-- Every pair the kNN pass selects points at a valid node other than `i`. -/
theorem chosen_mem (d2fn : ℕ → ℕ → ℚ) (n i k : ℕ) :
    ∀ p ∈ ((((List.range n).filter fun j => j ≠ i).map fun j => (d2fn i j, j)).mergeSort
      fun a b => decide (a.1 ≤ b.1)).take k, p.2 < n ∧ p.2 ≠ i := by
  intro p hp
  have hp1 := List.mem_of_mem_take hp
  rw [List.mem_mergeSort, List.mem_map] at hp1
  obtain ⟨j0, hj0, rfl⟩ := hp1
  rw [List.mem_filter, List.mem_range] at hj0
  exact ⟨hj0.1, by simpa using hj0.2⟩

theorem knnPass_AdjInv {n : ℕ} (d2fn : ℕ → ℕ → ℚ) {i : ℕ} (hi : i < n)
    {adj : List (List ℕ)} (h : AdjInv n adj) : AdjInv n (knnPass d2fn n i adj) := by
  simp only [knnPass]
  exact foldl_addEdge_AdjInv hi _ adj h (fun p hp => chosen_mem d2fn n i _ p hp)

theorem knnPass_length (d2fn : ℕ → ℕ → ℚ) (n i : ℕ) (adj : List (List ℕ)) :
    (knnPass d2fn n i adj).length = adj.length := by
  simp only [knnPass]
  exact foldl_addEdge_length i _ adj

theorem knnPass_mono (d2fn : ℕ → ℕ → ℚ) {n i : ℕ} (hi : i < n)
    {adj : List (List ℕ)} (hlen : adj.length = n) (a b : ℕ)
    (hb : b ∈ adj.getD a []) : b ∈ (knnPass d2fn n i adj).getD a [] := by
  simp only [knnPass]
  exact foldl_addEdge_mono _ adj hlen hi (fun p hp => (chosen_mem d2fn n i _ p hp).1) a b hb

theorem knnPass_nonempty (d2fn : ℕ → ℕ → ℚ) {n i : ℕ} (hi : i < n) (h2 : 2 ≤ n)
    {adj : List (List ℕ)} (hlen : adj.length = n) :
    (knnPass d2fn n i adj).getD i [] ≠ [] := by
  have hdlen : (((List.range n).filter fun j => j ≠ i).map fun j => (d2fn i j, j)).length
      = n - 1 := by
    rw [List.length_map]
    have hfe : (List.range n).filter (fun j => decide (j ≠ i))
        = (List.range n).filter (fun j => j != i) :=
      List.filter_congr fun a _ => by by_cases h : a = i <;> simp [h]
    rw [hfe, ← (List.nodup_range n).erase_eq_filter i,
      List.length_erase_of_mem (List.mem_range.mpr hi), List.length_range]
  simp only [knnPass]
  rcases hch : ((((List.range n).filter fun j => j ≠ i).map fun j => (d2fn i j, j)).mergeSort
      fun a b => decide (a.1 ≤ b.1)).take
        (min 3 (((List.range n).filter fun j => j ≠ i).map fun j => (d2fn i j, j)).length)
    with _ | ⟨p0, rest⟩
  · exfalso
    have hlen0 := congrArg List.length hch
    rw [List.length_take, List.length_mergeSort, hdlen] at hlen0
    simp only [List.length_nil] at hlen0
    omega
  · rw [List.foldl_cons]
    have hp0 : p0.2 < n ∧ p0.2 ≠ i := by
      refine chosen_mem d2fn n i
        (3 ⊓ (((List.range n).filter fun j => j ≠ i).map fun j => (d2fn i j, j)).length)
        p0 ?_
      rw [hch]
      exact List.mem_cons_self p0 rest
    have hstart : p0.2 ∈ (addEdge i p0.2 adj).getD i [] := by
      rw [mem_addEdge (by rwa [hlen]) (by rw [hlen]; exact hp0.1)]
      exact Or.inr (Or.inl ⟨rfl, rfl⟩)
    refine List.ne_nil_of_mem (a := p0.2) ?_
    refine foldl_addEdge_mono rest _ (by rw [addEdge_length]; exact hlen) hi ?_ i p0.2 hstart
    intro q hq
    refine (chosen_mem d2fn n i
      (3 ⊓ (((List.range n).filter fun j => j ≠ i).map fun j => (d2fn i j, j)).length)
      q ?_).1
    rw [hch]
    exact List.mem_cons_of_mem p0 hq

theorem replicate_AdjInv (n : ℕ) : AdjInv n (List.replicate n []) := by
  refine ⟨by simp, ?_, ?_, ?_⟩
  · intro i j hj
    rw [getD_replicate] at hj
    cases hj
  · intro i
    rw [getD_replicate]
    exact List.nodup_nil
  · intro i j
    rw [getD_replicate, getD_replicate]
    simp

theorem buildAdjacency_AdjInv (d2fn : ℕ → ℕ → ℚ) (n : ℕ) :
    AdjInv n (buildAdjacency d2fn n) := by
  unfold buildAdjacency
  split_ifs with h1
  · exact replicate_AdjInv n
  · have hgen : ∀ (L : List ℕ) (adj : List (List ℕ)), AdjInv n adj →
        (∀ i ∈ L, i < n) →
        AdjInv n (L.foldl (fun acc i => knnPass d2fn n i acc) adj) := by
      intro L
      induction L with
      | nil => intro adj h _; exact h
      | cons i0 rest ih =>
        intro adj h hL
        rw [List.foldl_cons]
        exact ih _ (knnPass_AdjInv d2fn (hL i0 (List.mem_cons_self i0 rest)) h)
          fun q hq => hL q (List.mem_cons_of_mem i0 hq)
    exact hgen (List.range n) _ (replicate_AdjInv n) fun i hi => List.mem_range.mp hi

theorem buildAdjacency_nonempty (d2fn : ℕ → ℕ → ℚ) {n : ℕ} (h2 : 2 ≤ n) :
    ∀ i, i < n → (buildAdjacency d2fn n).getD i [] ≠ [] := by
  have hgen : ∀ (L : List ℕ) (adj : List (List ℕ)), adj.length = n →
      (∀ i ∈ L, i < n) → ∀ a, a < n → (a ∈ L ∨ adj.getD a [] ≠ []) →
      (L.foldl (fun acc i => knnPass d2fn n i acc) adj).getD a [] ≠ [] := by
    intro L
    induction L with
    | nil =>
      intro adj hlen _ a _ ha
      rcases ha with ha | ha
      · cases ha
      · exact ha
    | cons i0 rest ih =>
      intro adj hlen hL a han ha
      rw [List.foldl_cons]
      have hlen' : (knnPass d2fn n i0 adj).length = n := by
        rw [knnPass_length]
        exact hlen
      have hi0 : i0 < n := hL i0 (List.mem_cons_self i0 rest)
      rcases ha with ha | ha
      · rcases List.mem_cons.mp ha with rfl | ha'
        · refine ih _ hlen' (fun q hq => hL q (List.mem_cons_of_mem _ hq)) a han
            (Or.inr ?_)
          exact knnPass_nonempty d2fn hi0 h2 hlen
        · exact ih _ hlen' (fun q hq => hL q (List.mem_cons_of_mem _ hq)) a han
            (Or.inl ha')
      · refine ih _ hlen' (fun q hq => hL q (List.mem_cons_of_mem _ hq)) a han
          (Or.inr ?_)
        obtain ⟨b, hb⟩ := List.exists_mem_of_ne_nil _ ha
        exact List.ne_nil_of_mem (knnPass_mono d2fn hi0 hlen a b hb)
  intro i hi
  unfold buildAdjacency
  rw [if_neg (by omega)]
  exact hgen (List.range n) _ (by simp) (fun q hq => List.mem_range.mp hq) i hi
    (Or.inl (List.mem_range.mpr hi))

theorem init_nodes_neighbors (R : InitRand) (n : ℕ) (name : String) (i : ℕ) :
    ((dtnsim_init R n name).nodes.getD i dummyNode).neighbors
      = (buildAdjacency (initD2 R n) n).getD i [] := by
  have hnodes : (dtnsim_init R n name).nodes = initNodes R n := by
    simp only [dtnsim_init]
    split_ifs <;> rfl
  rw [hnodes]
  rcases lt_or_ge i n with hi | hi
  · rw [initNodes, getD_map_range _ dummyNode hi]
  · rw [getD_of_ge (by simpa [initNodes] using hi)]
    have hlen : (buildAdjacency (initD2 R n) n).length = n :=
      (buildAdjacency_AdjInv (initD2 R n) n).1
    rw [getD_of_ge (by rwa [hlen])]
    rfl

/-- C7 (amended): after `dtnsim_init` with `n ≥ 2` nodes, every node's
neighbor list is nonempty, duplicate-free, omits the node itself and so has
between 1 and n-1 entries, and the neighbor relation is symmetric. The
claimed upper bound of 2K = 6 neighbors does not hold in general (see the
counterexample). -/
theorem knn_graph_symmetric_lower_bound (R : InitRand) (n : ℕ) (name : String)
    (h2 : 2 ≤ n) :
    (∀ i, i < n →
      ((dtnsim_init R n name).nodes.getD i dummyNode).neighbors ≠ [] ∧
      ((dtnsim_init R n name).nodes.getD i dummyNode).neighbors.Nodup ∧
      i ∉ ((dtnsim_init R n name).nodes.getD i dummyNode).neighbors ∧
      1 ≤ ((dtnsim_init R n name).nodes.getD i dummyNode).neighbors.length ∧
      ((dtnsim_init R n name).nodes.getD i dummyNode).neighbors.length ≤ n - 1) ∧
    ∀ i j, j ∈ ((dtnsim_init R n name).nodes.getD i dummyNode).neighbors ↔
      i ∈ ((dtnsim_init R n name).nodes.getD j dummyNode).neighbors := by
  obtain ⟨hlen, hbound, hnodup, hsym⟩ := buildAdjacency_AdjInv (initD2 R n) n
  constructor
  · intro i hi
    rw [init_nodes_neighbors]
    have hne := buildAdjacency_nonempty (initD2 R n) h2 i hi
    refine ⟨hne, hnodup i, ?_, ?_, ?_⟩
    · intro hmem
      exact absurd rfl (hbound i i hmem).2
    · rcases List.exists_mem_of_ne_nil _ hne with ⟨b, hb⟩
      exact List.length_pos.mpr (List.ne_nil_of_mem hb)
    · have hsub : (buildAdjacency (initD2 R n) n).getD i [] ⊆ (List.range n).erase i := by
        intro b hb
        obtain ⟨hbn, hbi⟩ := hbound i b hb
        rw [List.mem_erase_of_ne hbi]
        exact List.mem_range.mpr hbn
      have hsp := (hnodup i).subperm hsub
      have := hsp.length_le
      rwa [List.length_erase_of_mem (List.mem_range.mpr hi), List.length_range] at this
  · intro i j
    rw [init_nodes_neighbors, init_nodes_neighbors]
    exact hsym i j

/-- The 9-node configuration refuting the 2K upper bound: the center node
is among the 3 nearest of all 8 outer nodes (4 tight pairs along different
axes), so it ends up with 8 neighbors. -/
def r7pos : List (ℚ × ℚ × ℚ) :=
  [(750, 750, 750),
   (1050, 750, 750), (1051, 750, 750),
   (448, 750, 750), (447, 750, 750),
   (750, 1054, 750), (750, 1055, 750),
   (750, 750, 1056), (750, 750, 1057)]

def c7R : InitRand := ⟨fun i => r7pos.getD i (0, 0, 0), fun _ => 0, fun _ => 0, 0, 0⟩

/-- C7 counterexample: on this 9-node initialization the first node ends up
with 8 neighbors, violating the claimed "between 1 and 6 (= 2K)" bound. -/
theorem knn_upper_bound_counterexample :
    ((dtnsim_init c7R 9 "carryonly").nodes.getD 0 dummyNode).neighbors.length = 8 ∧
    ¬ ((dtnsim_init c7R 9 "carryonly").nodes.getD 0 dummyNode).neighbors.length ≤ 2 * 3 := by
  constructor <;> with_unfolding_all decide

theorem knn_graph_symmetric_lower_bound_witness :
    (∀ i, i < 2 →
      ((dtnsim_init c2R 2 "carryonly").nodes.getD i dummyNode).neighbors ≠ [] ∧
      ((dtnsim_init c2R 2 "carryonly").nodes.getD i dummyNode).neighbors.Nodup ∧
      i ∉ ((dtnsim_init c2R 2 "carryonly").nodes.getD i dummyNode).neighbors ∧
      1 ≤ ((dtnsim_init c2R 2 "carryonly").nodes.getD i dummyNode).neighbors.length ∧
      ((dtnsim_init c2R 2 "carryonly").nodes.getD i dummyNode).neighbors.length ≤ 2 - 1) ∧
    ∀ i j, j ∈ ((dtnsim_init c2R 2 "carryonly").nodes.getD i dummyNode).neighbors ↔
      i ∈ ((dtnsim_init c2R 2 "carryonly").nodes.getD j dummyNode).neighbors :=
  knn_graph_symmetric_lower_bound c2R 2 "carryonly" (by norm_num)

/-! ### C10: no validation of dt -/

def c10Sqrt : ℚ → ℚ := fun _ => 40

def c10Rnd : ℕ → ℕ := fun _ => 0

def c10Step (f : ℚ → ℚ) (g : ℕ → ℕ) : SimState :=
  dtnsim_step f g (-1) (dtnsim_init c2R 2 "carryonly")

def c10Agent (f : ℚ → ℚ) (g : ℕ → ℕ) : Agent :=
  (c10Step f g).agents.getD 0 dummyAgent

/-- A point of the straight segment between nodes `i` and `j`, at parameter
`t`, in the interpolation form the mobility update uses. -/
def segPoint (nodes : List GraphNode) (i j : ℕ) (t : ℚ) : ℚ × ℚ × ℚ :=
  ((nodes.getD i dummyNode).x + ((nodes.getD j dummyNode).x - (nodes.getD i dummyNode).x) * t,
   (nodes.getD i dummyNode).y + ((nodes.getD j dummyNode).y - (nodes.getD i dummyNode).y) * t,
   (nodes.getD i dummyNode).z + ((nodes.getD j dummyNode).z - (nodes.getD i dummyNode).z) * t)

theorem mobilityAgent_congr (f g : ℚ → ℚ) (r s : ℕ) (nodes : List GraphNode)
    (dt : ℚ) (a : Agent)
    (hlen : f (edgeD2 nodes a) = g (edgeD2 nodes a))
    (hno : progressAfter (g (edgeD2 nodes a)) a.progress dt < 1) :
    mobilityAgent f nodes r dt a = mobilityAgent g nodes s dt a := by
  by_cases h0 : nodes.length = 0
  · simp [mobilityAgent, h0]
  · simp only [mobilityAgent, if_neg h0, hlen]
    rw [if_neg (not_le.mpr hno), if_neg (not_le.mpr hno)]

theorem c10_step_eq (f : ℚ → ℚ) (g : ℕ → ℕ) (hf : f 1600 = 40) :
    c10Step f g = c10Step c10Sqrt c10Rnd := by
  have hd0 : edgeD2 (dtnsim_init c2R 2 "carryonly").nodes
      ((dtnsim_init c2R 2 "carryonly").agents.getD 0 dummyAgent) = 1600 := by
    with_unfolding_all decide
  have hd1 : edgeD2 (dtnsim_init c2R 2 "carryonly").nodes
      ((dtnsim_init c2R 2 "carryonly").agents.getD 1 dummyAgent) = 1600 := by
    with_unfolding_all decide
  have hA : (dtnsim_init c2R 2 "carryonly").agents.length = 2 := by
    with_unfolding_all decide
  have e0 : mobilityAgent f (dtnsim_init c2R 2 "carryonly").nodes (g 0) (-1)
        ((dtnsim_init c2R 2 "carryonly").agents.getD 0 dummyAgent)
      = mobilityAgent c10Sqrt (dtnsim_init c2R 2 "carryonly").nodes (c10Rnd 0) (-1)
        ((dtnsim_init c2R 2 "carryonly").agents.getD 0 dummyAgent) :=
    mobilityAgent_congr f c10Sqrt (g 0) (c10Rnd 0) _ (-1) _
      (by rw [hd0, hf]; rfl) (by rw [hd0]; with_unfolding_all decide)
  have e1 : mobilityAgent f (dtnsim_init c2R 2 "carryonly").nodes (g 1) (-1)
        ((dtnsim_init c2R 2 "carryonly").agents.getD 1 dummyAgent)
      = mobilityAgent c10Sqrt (dtnsim_init c2R 2 "carryonly").nodes (c10Rnd 1) (-1)
        ((dtnsim_init c2R 2 "carryonly").agents.getD 1 dummyAgent) :=
    mobilityAgent_congr f c10Sqrt (g 1) (c10Rnd 1) _ (-1) _
      (by rw [hd1, hf]; rfl) (by rw [hd1]; with_unfolding_all decide)
  have hmob : stepMobility f g (-1) (dtnsim_init c2R 2 "carryonly")
      = stepMobility c10Sqrt c10Rnd (-1) (dtnsim_init c2R 2 "carryonly") := by
    simp only [stepMobility, hA]
    rw [show List.range 2 = [0, 1] from rfl]
    simp only [List.map_cons, List.map_nil]
    rw [e0, e1]
  simp only [c10Step, dtnsim_step, stepRout, hmob]

/-- C10: `dtnsim_step` does not validate `dt`. From the (reachable) freshly
initialised two-node state, one step with the negative `dt = -1` leaves agent
0 with progress strictly below 0 and a reported position lying outside the
segment between its current node and its target node. -/
theorem step_negative_dt_unvalidated (f : ℚ → ℚ) (g : ℕ → ℕ)
    (hf : f 1600 = 40) :
    ReachableState (dtnsim_init c2R 2 "carryonly") ∧
    (c10Agent f g).progress < 0 ∧
    (c10Agent f g).current_node = 0 ∧
    (c10Agent f g).target_node = 1 ∧
    ∀ t : ℚ, 0 ≤ t → t ≤ 1 →
      ((c10Agent f g).x, (c10Agent f g).y, (c10Agent f g).z) ≠
        segPoint (c10Step f g).nodes (c10Agent f g).current_node
          (c10Agent f g).target_node t := by
  have heq : c10Step f g = c10Step c10Sqrt c10Rnd := c10_step_eq f g hf
  have hag : c10Agent f g = c10Agent c10Sqrt c10Rnd := by
    simp only [c10Agent, heq]
  have hprog : (c10Agent c10Sqrt c10Rnd).progress = -15 / 4 := by
    with_unfolding_all decide
  have hcur : (c10Agent c10Sqrt c10Rnd).current_node = 0 := by
    with_unfolding_all decide
  have htgt : (c10Agent c10Sqrt c10Rnd).target_node = 1 := by
    with_unfolding_all decide
  have hx : (c10Agent c10Sqrt c10Rnd).x = -150 := by with_unfolding_all decide
  have hn0 : ((c10Step c10Sqrt c10Rnd).nodes.getD 0 dummyNode).x = 0 := by
    with_unfolding_all decide
  have hn1 : ((c10Step c10Sqrt c10Rnd).nodes.getD 1 dummyNode).x = 40 := by
    with_unfolding_all decide
  refine ⟨ReachableState.init c2R 2 "carryonly", ?_, ?_, ?_, ?_⟩
  · rw [hag, hprog]; norm_num
  · rw [hag, hcur]
  · rw [hag, htgt]
  · intro t ht0 ht1 hcontra
    rw [hag, hcur, htgt] at hcontra
    have hfst := congrArg Prod.fst hcontra
    simp only [segPoint, hag, heq, hx, hn0, hn1] at hfst
    linarith

theorem step_negative_dt_unvalidated_witness :
    ReachableState (dtnsim_init c2R 2 "carryonly") ∧
    (c10Agent c10Sqrt c10Rnd).progress < 0 ∧
    (c10Agent c10Sqrt c10Rnd).current_node = 0 ∧
    (c10Agent c10Sqrt c10Rnd).target_node = 1 ∧
    ∀ t : ℚ, 0 ≤ t → t ≤ 1 →
      ((c10Agent c10Sqrt c10Rnd).x, (c10Agent c10Sqrt c10Rnd).y,
          (c10Agent c10Sqrt c10Rnd).z) ≠
        segPoint (c10Step c10Sqrt c10Rnd).nodes
          (c10Agent c10Sqrt c10Rnd).current_node
          (c10Agent c10Sqrt c10Rnd).target_node t :=
  step_negative_dt_unvalidated c10Sqrt c10Rnd rfl
